import Mathlib

/-!
Shallow embedding of `src/main.cpp`: the `FloydWarshall` class (all-pairs
shortest distances with next-hop path reconstruction), its initialisation from
an edge list, the relaxation pass `GenerateDistanceMatrix`, the path walker
`GetPath` with its substring-based cycle guard, and the report writer
`PrintDistances`.

Modelling choices:
* vertex identifiers are `String`s, exactly as in the source;
* the C++ `double` weights are idealised as exact rationals, and the
  `DOUBLE_MAX` sentinel is the distinguished value `D.inf`;
* the two `std::map` members are association lists in which the most recent
  insertion shadows older entries; `operator[]`'s default-insertion side
  effect is modelled explicitly by `mindex`;
* the unbounded `while` loop of `GetPath` runs on explicit fuel, and a
  theorem below shows the fuel `GetPath` supplies can never run out.
-/

/-- Vertex identifiers (`std::string`). -/
abbrev V := String

/-- One line of the input edge file: source, destination, weight. -/
abbrev Edge := V × V × ℚ

/-- A `double` distance value: finite, or the `DOUBLE_MAX` sentinel. -/
inductive D where
  | inf : D
  | fin : ℚ → D
deriving DecidableEq

namespace D

/-- Addition of distance values (the sentinel absorbs; the source only ever
adds values it has checked to be below `DOUBLE_MAX`). -/
def add : D → D → D
  | inf, _ => inf
  | _, inf => inf
  | fin a, fin b => fin (a + b)

/-- The strict comparison used in `main.cpp` (`x < DOUBLE_MAX`,
`i_k + k_j < i_j`). -/
def lt : D → D → Prop
  | inf, _ => False
  | fin _, inf => True
  | fin a, fin b => a < b

/-- Non-strict companion order to `D.lt`. -/
def le : D → D → Prop
  | _, inf => True
  | inf, fin _ => False
  | fin a, fin b => a ≤ b

instance : Add D := ⟨add⟩
instance : LT D := ⟨lt⟩
instance : LE D := ⟨le⟩

instance decidableLT : ∀ a b : D, Decidable (a < b)
  | inf, inf => isFalse (fun h => h)
  | inf, fin _ => isFalse (fun h => h)
  | fin _, inf => isTrue trivial
  | fin a, fin b => inferInstanceAs (Decidable (a < b))

instance decidableLE : ∀ a b : D, Decidable (a ≤ b)
  | inf, inf => isTrue trivial
  | fin _, inf => isTrue trivial
  | inf, fin _ => isFalse (fun h => h)
  | fin a, fin b => inferInstanceAs (Decidable (a ≤ b))

end D

/-- `std::map` lookup (`find`/`count`/`at` all use this; no side effect). -/
def mlookup {α : Type} : List ((V × V) × α) → (V × V) → Option α
  | [], _ => none
  | e :: rest, k => if e.1 = k then some e.2 else mlookup rest k

/-- `map[k] = v`: insert-or-assign; the new entry shadows any older one. -/
def massign {α : Type} (m : List ((V × V) × α)) (k : V × V) (v : α) :
    List ((V × V) × α) :=
  (k, v) :: m

/-- `map[k]` as an rvalue: returns the stored value, or value-initialises the
entry with default `d` — the default-insertion side effect of `operator[]`. -/
def mindex {α : Type} (m : List ((V × V) × α)) (k : V × V) (d : α) :
    α × List ((V × V) × α) :=
  match mlookup m k with
  | some v => (v, m)
  | none => (d, massign m k d)

/-- The data members of class `FloydWarshall`: `dist_matrix_`,
`next_vertex_`, `vertices_`. -/
structure FWState where
  dist : List ((V × V) × D)
  nxt : List ((V × V) × V)
  vertices : List V
deriving DecidableEq

/-- Distance-table read with `operator[]` value semantics (absent ↦ `0.0`). -/
def distF (s : FWState) (i j : V) : D := (mlookup s.dist (i, j)).getD (D.fin 0)

/-- One iteration of the read loop in `FloydWarshall::InitEdges`: record the
edge (overwriting any duplicate) and register unseen endpoints in order. -/
def addEdge (s : FWState) (e : Edge) : FWState :=
  let vs1 := if e.1 ∈ s.vertices then s.vertices else s.vertices ++ [e.1]
  let vs2 := if e.2.1 ∈ vs1 then vs1 else vs1 ++ [e.2.1]
  { dist := massign s.dist (e.1, e.2.1) (D.fin e.2.2),
    nxt := massign s.nxt (e.1, e.2.1) e.2.1,
    vertices := vs2 }

/-- `FloydWarshall::InitEdges`; the edge list stands for the parsed file. -/
def InitEdges (es : List Edge) : FWState :=
  es.foldl addEdge { dist := [], nxt := [], vertices := [] }

/-- The pairs visited by `for_each_vertex_pair`, in iteration order. -/
def pairsOf (vs : List V) : List (V × V) :=
  vs.flatMap fun l => vs.map fun r => (l, r)

/-- The `for_each_vertex_pair` body of `FloydWarshall::InitDistanceMatrix`:
diagonal entries are reset to `0`, absent off-diagonal entries become the
sentinel, present ones are kept (`count` does not insert). -/
def initPair (m : List ((V × V) × D)) (p : V × V) : List ((V × V) × D) :=
  if p.1 = p.2 then massign m (p.1, p.1) (D.fin 0)
  else if (mlookup m p).isSome then m
  else massign m p D.inf

/-- `FloydWarshall::InitDistanceMatrix`. -/
def InitDistanceMatrix (s : FWState) : FWState :=
  { s with dist := (pairsOf s.vertices).foldl initPair s.dist }

/-- The constructor `FloydWarshall::FloydWarshall(file_name)`: load edges,
then initialise the distance matrix. -/
def mkFW (es : List Edge) : FWState := InitDistanceMatrix (InitEdges es)

/-- The innermost loop body of `FloydWarshall::GenerateDistanceMatrix`, with
every `operator[]` read threaded through `mindex` (lines 31-37 of the
source). -/
def relaxStep (s : FWState) (k i j : V) : FWState :=
  let r1 := mindex s.dist (i, k) (D.fin 0)
  let r2 := mindex r1.2 (k, j) (D.fin 0)
  let r3 := mindex r2.2 (i, j) (D.fin 0)
  if r1.1 < D.inf ∧ r2.1 < D.inf ∧ r1.1 + r2.1 < r3.1 then
    let rn := mindex s.nxt (i, k) ""
    { s with dist := massign r3.2 (i, j) (r1.1 + r2.1),
             nxt := massign rn.2 (i, j) rn.1 }
  else
    { s with dist := r3.2 }

/-- One sweep of the outer loop for a fixed intermediate vertex `k`. -/
def relaxK (s : FWState) (k : V) : FWState :=
  (pairsOf s.vertices).foldl (fun t p => relaxStep t k p.1 p.2) s

/-- `FloydWarshall::GenerateDistanceMatrix`. -/
def GenerateDistanceMatrix (s : FWState) : FWState :=
  s.vertices.foldl relaxK s

/-- `relaxStep` with mutation-free reads: used to state that the real pass
never default-inserts on lookup. -/
def relaxStepR (s : FWState) (k i j : V) : FWState :=
  let i_k := (mlookup s.dist (i, k)).getD (D.fin 0)
  let k_j := (mlookup s.dist (k, j)).getD (D.fin 0)
  let i_j := (mlookup s.dist (i, j)).getD (D.fin 0)
  if i_k < D.inf ∧ k_j < D.inf ∧ i_k + k_j < i_j then
    { s with dist := massign s.dist (i, j) (i_k + k_j),
             nxt := massign s.nxt (i, j) ((mlookup s.nxt (i, k)).getD "") }
  else s

/-- `relaxK` with mutation-free reads. -/
def relaxKR (s : FWState) (k : V) : FWState :=
  (pairsOf s.vertices).foldl (fun t p => relaxStepR t k p.1 p.2) s

/-- `GenerateDistanceMatrix` with mutation-free reads. -/
def GenerateDistanceMatrixR (s : FWState) : FWState :=
  s.vertices.foldl relaxKR s

/-- Errors a `GetPath` call can raise: the `CycleDetectedException`, or
`std::out_of_range` from `map::at` on a missing key. -/
inductive PathErr where
  | cycle : PathErr
  | keyAbsent : PathErr
deriving DecidableEq

/-- A successful `GetPath` outcome: the `"No path"` answer or a vertex walk. -/
inductive PathRes where
  | noPath : PathRes
  | path : List V → PathRes
deriving DecidableEq

deriving instance DecidableEq for Except

/-- The dash-joined string `GetPath` accumulates in its `path` variable. -/
def joinDash : List V → String
  | [] => ""
  | [a] => a
  | a :: rest => a ++ "-" ++ joinDash rest

/-- `s.find(pat) != std::string::npos`: `pat` occurs as a substring of `s`. -/
def strContains (s pat : String) : Bool :=
  s.data.tails.any fun t => pat.data.isPrefixOf t

/-- The `while` loop of `FloydWarshall::GetPath` on explicit fuel; `none`
means the fuel ran out (impossible for the fuel `GetPath` supplies, proved
below). -/
def getPathAux (nxt : List ((V × V) × V)) (dst : V) :
    ℕ → List V → V → Option (Except PathErr (List V))
  | 0, _, _ => none
  | fuel + 1, visited, current =>
    if current = dst then some (Except.ok visited)
    else
      match mlookup nxt (current, dst) with
      | none => some (Except.error PathErr.keyAbsent)
      | some c =>
        if c = dst then some (Except.ok (visited ++ [c]))
        else if strContains (joinDash visited) c then some (Except.error PathErr.cycle)
        else getPathAux nxt dst fuel (visited ++ [c]) c

/-- Fuel that always suffices for the walk (one more than the number of
distinct vertices the next-hop table can ever produce). -/
def pathFuel (nxt : List ((V × V) × V)) : ℕ :=
  (nxt.map fun e => e.2).dedup.length + 2

/-- `FloydWarshall::GetPath`, with the walked vertex sequence kept as a
list. -/
def GetPath (s : FWState) (start dst : V) : Except PathErr PathRes :=
  match mlookup s.dist (start, dst) with
  | none => Except.error PathErr.keyAbsent
  | some d =>
    if d = D.inf then Except.ok PathRes.noPath
    else
      match getPathAux s.nxt dst (pathFuel s.nxt) [start] start with
      | some r => r.map PathRes.path
      | none => Except.error PathErr.cycle

/-- `GetPath` rendered as the string the C++ function returns. -/
def GetPathStr (s : FWState) (start dst : V) : Except PathErr String :=
  (GetPath s start dst).map fun r =>
    match r with
    | PathRes.noPath => "No path"
    | PathRes.path l => joinDash l

/-- One line of the report `PrintDistances` writes. -/
inductive RLine where
  | inf (src dst : V) : RLine
  | fin (src dst : V) (d : D) (path : String) : RLine
deriving DecidableEq

/-- Outcome of `PrintDistances`: the lines written before any exception, the
exception that escaped (if any), and the distance table afterwards. -/
structure PrintOut where
  lines : List RLine
  err : Option PathErr
  dist : List ((V × V) × D)
deriving DecidableEq

/-- The pair loop of `FloydWarshall::PrintDistances`: the distance is read
through `operator[]` (before the `lhs != rhs` test, as in the source), and a
`GetPath` exception aborts the remaining iterations. -/
def printGo (nxt : List ((V × V) × V)) (vs : List V) :
    List (V × V) → List ((V × V) × D) → PrintOut
  | [], dm => { lines := [], err := none, dist := dm }
  | p :: rest, dm =>
    let rd := mindex dm p (D.fin 0)
    if p.1 = p.2 then printGo nxt vs rest rd.2
    else if rd.1 = D.inf then
      let res := printGo nxt vs rest rd.2
      { res with lines := RLine.inf p.1 p.2 :: res.lines }
    else
      match GetPathStr { dist := rd.2, nxt := nxt, vertices := vs } p.1 p.2 with
      | Except.error e => { lines := [], err := some e, dist := rd.2 }
      | Except.ok str =>
        let res := printGo nxt vs rest rd.2
        { res with lines := RLine.fin p.1 p.2 rd.1 str :: res.lines }

/-- `FloydWarshall::PrintDistances`. -/
def PrintDistances (s : FWState) : PrintOut :=
  printGo s.nxt s.vertices (pairsOf s.vertices) s.dist

/-- The report lines an abort-free pass over `ps` would produce (used to
describe where the real report is truncated). -/
def reportLines (s : FWState) : List (V × V) → List RLine
  | [] => []
  | p :: rest =>
    if p.1 = p.2 then reportLines s rest
    else if distF s p.1 p.2 = D.inf then RLine.inf p.1 p.2 :: reportLines s rest
    else
      match GetPathStr s p.1 p.2 with
      | Except.error _ => reportLines s rest
      | Except.ok str => RLine.fin p.1 p.2 (distF s p.1 p.2) str :: reportLines s rest

/-- The effective stored weight of the edge `(a, b)`: the last matching line
of the input wins, mirroring the overwriting `dist_matrix_[{lhs, rhs}] = w`
in `InitEdges`. -/
def edgeWeight : List Edge → V → V → Option ℚ
  | [], _, _ => none
  | e :: es, a, b =>
    match edgeWeight es a b with
    | some w => some w
    | none => if e.1 = a ∧ e.2.1 = b then some e.2.2 else none

/-- `IsWalk es u v p w`: `u :: p` is a directed walk from `u` to `v` along
effective edges of `es`, of total weight `w`. -/
inductive IsWalk (es : List Edge) : V → V → List V → ℚ → Prop
  | nil (u : V) : IsWalk es u u [] 0
  | cons {u a v : V} {p : List V} {wa w : ℚ} :
      edgeWeight es u a = some wa → IsWalk es a v p w →
      IsWalk es u v (a :: p) (wa + w)

/-- The effective graph has no directed cycle of negative total weight. -/
def NoNegCycle (es : List Edge) : Prop :=
  ∀ v p w, IsWalk es v v p w → p ≠ [] → 0 ≤ w

/-- `NxtChain nxt dst cur suffix`: starting at `cur`, repeatedly following
`nxt (·, dst)` produces exactly the vertices of `suffix` and stops at `dst`;
this is the abstract hop sequence a successful `GetPath` walk traverses. -/
inductive NxtChain (nxt : List ((V × V) × V)) (dst : V) : V → List V → Prop
  | done : NxtChain nxt dst dst []
  | step {cur c : V} {suffix : List V} : cur ≠ dst →
      mlookup nxt (cur, dst) = some c → NxtChain nxt dst c suffix →
      NxtChain nxt dst cur (c :: suffix)

/-- `WalkPrefix nxt dst cur p`: `p` is a finite prefix of the next-hop walk
toward `dst` starting at `cur` that has not yet reached `dst`. -/
inductive WalkPrefix (nxt : List ((V × V) × V)) (dst : V) : V → List V → Prop
  | single {cur : V} : cur ≠ dst → WalkPrefix nxt dst cur [cur]
  | cons {cur c : V} {p : List V} : cur ≠ dst →
      mlookup nxt (cur, dst) = some c → c ≠ dst → WalkPrefix nxt dst c p →
      WalkPrefix nxt dst cur (cur :: p)

/-- The exact condition under which the walk of `GetPath s u v` raises the
cycle exception: some prefix of the next-hop walk ends with a candidate
(different from the destination) whose name occurs as a substring of the
dash-joined path string built so far. -/
def CycleTrig (s : FWState) (u v : V) : Prop :=
  ∃ p lastv c, WalkPrefix s.nxt v u p ∧ p.getLast? = some lastv ∧
    mlookup s.nxt (lastv, v) = some c ∧ c ≠ v ∧
    strContains (joinDash p) c = true

/-- Sum of the stored effective edge weights along consecutive hops of a
vertex sequence (`none` if some hop is not an edge). -/
def hopSum (es : List Edge) : List V → Option ℚ
  | [] => some 0
  | [_] => some 0
  | a :: b :: rest =>
    match edgeWeight es a b, hopSum es (b :: rest) with
    | some w, some t => some (w + t)
    | _, _ => none

/-- Every pair of registered vertices has a distance entry (true from
`InitDistanceMatrix` on). -/
def DomFull (s : FWState) : Prop :=
  ∀ i ∈ s.vertices, ∀ j ∈ s.vertices, (mlookup s.dist (i, j)).isSome = true

/-- Every distance key has both endpoints registered. -/
def KeysSub (s : FWState) : Prop :=
  ∀ i j, (mlookup s.dist (i, j)).isSome = true → i ∈ s.vertices ∧ j ∈ s.vertices

/-- Off-diagonal pairs with a finite stored distance have a next-hop entry
(claim C9's invariant). -/
def NextCov (s : FWState) : Prop :=
  ∀ i j d, mlookup s.dist (i, j) = some d → i ≠ j → d ≠ D.inf →
    (mlookup s.nxt (i, j)).isSome = true

/-- A diagonal entry that has moved away from `0` has a next-hop entry. -/
def DiagCov (s : FWState) : Prop :=
  ∀ i d, mlookup s.dist (i, i) = some d → d ≠ D.fin 0 →
    (mlookup s.nxt (i, i)).isSome = true

/-- Every finite stored distance is realised by an actual walk. -/
def InvW (es : List Edge) (s : FWState) : Prop :=
  ∀ i j q, mlookup s.dist (i, j) = some (D.fin q) → ∃ p, IsWalk es i j p q

/-- The bundle of facts preserved by the relaxation pass on every input. -/
def Uinv (es : List Edge) (s : FWState) : Prop :=
  s.vertices = (InitEdges es).vertices ∧ DomFull s ∧ KeysSub s ∧ NextCov s ∧
    DiagCov s ∧ InvW es s

/-- The relaxation guard of `GenerateDistanceMatrix`, read off the current
table. -/
def Trig (s : FWState) (k i j : V) : Prop :=
  distF s i k < D.inf ∧ distF s k j < D.inf ∧
    distF s i k + distF s k j < distF s i j

instance decTrig (s : FWState) (k i j : V) : Decidable (Trig s k i j) :=
  inferInstanceAs (Decidable (distF s i k < D.inf ∧ distF s k j < D.inf ∧
    distF s i k + distF s k j < distF s i j))

/-- `t` is pointwise below `s` in the distance table. -/
def DecLe (s t : FWState) : Prop := ∀ i j, distF t i j ≤ distF s i j

/-- The distance table after the full pass (the target values of the run). -/
def sigma (es : List Edge) (i j : V) : D :=
  distF (GenerateDistanceMatrix (mkFW es)) i j

/-- The current table is pointwise above its final values. -/
def SigLe (es : List Edge) (t : FWState) : Prop :=
  ∀ i j, sigma es i j ≤ distF t i j

/-- Each recorded next hop is an effective edge whose weight plus the final
remaining distance is below the current entry (the invariant that makes the
reconstructed path sum match the stored distance). -/
def HopInv (es : List Edge) (t : FWState) : Prop :=
  ∀ i j m d, i ≠ j → mlookup t.dist (i, j) = some d → d ≠ D.inf →
    mlookup t.nxt (i, j) = some m →
    ∃ w, edgeWeight es i m = some w ∧ D.fin w + sigma es m j ≤ d

/-- The standard Floyd–Warshall loop invariant: every entry is below the
weight of every walk whose intermediate vertices all lie in `K`. -/
def Opt (es : List Edge) (K : List V) (t : FWState) : Prop :=
  ∀ i j p w, i ∈ t.vertices → j ∈ t.vertices → IsWalk es i j p w →
    (∀ x ∈ p.dropLast, x ∈ K) → distF t i j ≤ D.fin w

/-- The spec's positive-weight example: edges (A,B,1), (B,C,2), (A,C,10). -/
def exG : List Edge := [("A", "B", 1), ("B", "C", 2), ("A", "C", 10)]

/-- A two-vertex negative cycle: edges (A,B,1), (B,A,-3). -/
def exNeg : List Edge := [("A", "B", 1), ("B", "A", -3)]

/-- The negative cycle plus a third vertex reachable from A. -/
def exNeg3 : List Edge := [("A", "B", 1), ("B", "A", -3), ("A", "C", 1)]

/-- A single negative self-loop edge. -/
def exLoop : List Edge := [("A", "A", -5)]

/-- Hand-built tables on which the walk `AB → A → C` repeats no vertex, yet
the name `"A"` is a substring of the path string `"AB"`. -/
def sFalsePos : FWState :=
  { dist := [(("AB", "C"), D.fin 5)],
    nxt := [(("AB", "C"), "A"), (("A", "C"), "C")],
    vertices := ["AB", "A", "C"] }

/-! ## Lemmas about the distance value type -/

namespace D

@[simp] theorem add_fin_fin (a b : ℚ) : fin a + fin b = fin (a + b) := rfl

@[simp] theorem add_inf_left (b : D) : inf + b = inf := by cases b <;> rfl

@[simp] theorem add_inf_right (a : D) : a + inf = inf := by cases a <;> rfl

@[simp] theorem fin_lt_inf (a : ℚ) : fin a < inf := trivial

@[simp] theorem fin_lt_fin {a b : ℚ} : fin a < fin b ↔ a < b := Iff.rfl

@[simp] theorem not_inf_lt (b : D) : ¬ inf < b := fun h => h

@[simp] theorem le_inf (a : D) : a ≤ inf := by cases a <;> trivial

@[simp] theorem not_inf_le_fin (b : ℚ) : ¬ inf ≤ fin b := fun h => h

@[simp] theorem fin_le_fin {a b : ℚ} : fin a ≤ fin b ↔ a ≤ b := Iff.rfl

theorem lt_inf_iff {a : D} : a < inf ↔ a ≠ inf := by
  cases a <;> simp

theorem le_refl (a : D) : a ≤ a := by cases a <;> simp

theorem le_trans {a b c : D} (h1 : a ≤ b) (h2 : b ≤ c) : a ≤ c := by
  cases a <;> cases b <;> cases c <;> simp_all
  exact h1.trans h2

theorem lt_of_le_of_lt {a b c : D} (h1 : a ≤ b) (h2 : b < c) : a < c := by
  cases a <;> cases b <;> cases c <;> simp_all
  exact h1.trans_lt h2

theorem le_of_lt {a b : D} (h : a < b) : a ≤ b := by
  cases a <;> cases b <;> simp_all
  exact h.le

theorem not_lt {a b : D} : ¬ a < b ↔ b ≤ a := by
  cases a <;> cases b <;> simp_all

theorem le_antisymm {a b : D} (h1 : a ≤ b) (h2 : b ≤ a) : a = b := by
  cases a <;> cases b <;> simp_all
  exact h1.antisymm h2

theorem add_le {a b c d : D} (h1 : a ≤ c) (h2 : b ≤ d) : a + b ≤ c + d := by
  cases a <;> cases b <;> cases c <;> cases d <;> simp_all
  exact add_le_add h1 h2

theorem le_fin_iff {d : D} {w : ℚ} : d ≤ fin w ↔ ∃ a, d = fin a ∧ a ≤ w := by
  cases d <;> simp

theorem add_assoc (a b c : D) : a + b + c = a + (b + c) := by
  cases a <;> cases b <;> cases c <;> simp [Rat.add_assoc]

end D

/-! ## Lemmas about the map model -/

theorem mlookup_massign_self {α : Type} (m : List ((V × V) × α)) (k : V × V) (v : α) :
    mlookup (massign m k v) k = some v := by
  simp [mlookup, massign]

theorem mlookup_massign_ne {α : Type} {m : List ((V × V) × α)} {k k' : V × V} {v : α}
    (h : k' ≠ k) : mlookup (massign m k v) k' = mlookup m k' := by
  simp only [mlookup, massign]
  exact if_neg fun hh => h hh.symm

theorem mindex_present {α : Type} {m : List ((V × V) × α)} {k : V × V} {v : α}
    (h : mlookup m k = some v) (d : α) : mindex m k d = (v, m) := by
  simp [mindex, h]

theorem mindex_absent {α : Type} {m : List ((V × V) × α)} {k : V × V}
    (h : mlookup m k = none) (d : α) : mindex m k d = (d, massign m k d) := by
  simp [mindex, h]

/-! ## Characterisation of the constructor (`InitEdges`, `InitDistanceMatrix`) -/


theorem addEdge_dist_lookup (s : FWState) (e : Edge) (a b : V) :
    mlookup (addEdge s e).dist (a, b) =
      if e.1 = a ∧ e.2.1 = b then some (D.fin e.2.2) else mlookup s.dist (a, b) := by
  by_cases hc : e.1 = a ∧ e.2.1 = b
  · obtain ⟨h1, h2⟩ := hc
    subst h1; subst h2
    rw [if_pos ⟨rfl, rfl⟩]
    exact mlookup_massign_self _ _ _
  · rw [if_neg hc]
    exact mlookup_massign_ne fun hh =>
      hc ⟨(congrArg Prod.fst hh).symm, (congrArg Prod.snd hh).symm⟩

theorem addEdge_nxt_lookup (s : FWState) (e : Edge) (a b : V) :
    mlookup (addEdge s e).nxt (a, b) =
      if e.1 = a ∧ e.2.1 = b then some b else mlookup s.nxt (a, b) := by
  by_cases hc : e.1 = a ∧ e.2.1 = b
  · obtain ⟨h1, h2⟩ := hc
    subst h1; subst h2
    rw [if_pos ⟨rfl, rfl⟩]
    exact mlookup_massign_self _ _ _
  · rw [if_neg hc]
    exact mlookup_massign_ne fun hh =>
      hc ⟨(congrArg Prod.fst hh).symm, (congrArg Prod.snd hh).symm⟩

theorem foldl_addEdge_dist (es : List Edge) (s : FWState) (a b : V) :
    mlookup (es.foldl addEdge s).dist (a, b) =
      match edgeWeight es a b with
      | some w => some (D.fin w)
      | none => mlookup s.dist (a, b) := by
  induction es generalizing s with
  | nil => simp [edgeWeight]
  | cons e es ih =>
    rw [List.foldl_cons, ih, edgeWeight]
    cases hw : edgeWeight es a b with
    | some w => simp
    | none =>
      simp only
      rw [addEdge_dist_lookup]
      by_cases hc : e.1 = a ∧ e.2.1 = b
      · rw [if_pos hc, if_pos hc]
      · rw [if_neg hc, if_neg hc]

theorem foldl_addEdge_nxt (es : List Edge) (s : FWState) (a b : V) :
    mlookup (es.foldl addEdge s).nxt (a, b) =
      if (edgeWeight es a b).isSome then some b else mlookup s.nxt (a, b) := by
  induction es generalizing s with
  | nil => simp [edgeWeight]
  | cons e es ih =>
    rw [List.foldl_cons, ih, edgeWeight]
    cases hw : edgeWeight es a b with
    | some w => simp
    | none =>
      simp only [Option.isSome_none, Bool.false_eq_true, if_false]
      rw [addEdge_nxt_lookup]
      by_cases hc : e.1 = a ∧ e.2.1 = b
      · rw [if_pos hc, if_pos (by rw [if_pos hc]; rfl)]
      · rw [if_neg hc, if_neg (by rw [if_neg hc]; simp)]

theorem mem_appendIf (l : List V) (y x : V) :
    x ∈ (if y ∈ l then l else l ++ [y]) ↔ x ∈ l ∨ x = y := by
  by_cases h : y ∈ l
  · rw [if_pos h]
    constructor
    · exact Or.inl
    · rintro (hx | rfl)
      exacts [hx, h]
  · rw [if_neg h]
    simp

theorem mem_addEdge_vertices {s : FWState} {e : Edge} {x : V} :
    x ∈ (addEdge s e).vertices ↔ x ∈ s.vertices ∨ x = e.1 ∨ x = e.2.1 := by
  have hv : (addEdge s e).vertices =
      if e.2.1 ∈ (if e.1 ∈ s.vertices then s.vertices else s.vertices ++ [e.1])
      then (if e.1 ∈ s.vertices then s.vertices else s.vertices ++ [e.1])
      else (if e.1 ∈ s.vertices then s.vertices else s.vertices ++ [e.1]) ++ [e.2.1] := rfl
  rw [hv, mem_appendIf, mem_appendIf, or_assoc]

theorem mem_foldl_addEdge_vertices {es : List Edge} {s : FWState} {x : V} :
    x ∈ (es.foldl addEdge s).vertices ↔
      x ∈ s.vertices ∨ ∃ e ∈ es, x = e.1 ∨ x = e.2.1 := by
  induction es generalizing s with
  | nil => simp
  | cons e es ih =>
    rw [List.foldl_cons, ih]
    simp only [mem_addEdge_vertices, List.mem_cons]
    constructor
    · rintro ((h | h | h) | ⟨e', he', h⟩)
      · exact Or.inl h
      · exact Or.inr ⟨e, Or.inl rfl, Or.inl h⟩
      · exact Or.inr ⟨e, Or.inl rfl, Or.inr h⟩
      · exact Or.inr ⟨e', Or.inr he', h⟩
    · rintro (h | ⟨e', he' | he', h⟩)
      · exact Or.inl (Or.inl h)
      · subst he'; exact Or.inl (Or.inr h)
      · exact Or.inr ⟨e', he', h⟩

theorem initEdges_dist (es : List Edge) (a b : V) :
    mlookup (InitEdges es).dist (a, b) = (edgeWeight es a b).map D.fin := by
  rw [InitEdges, foldl_addEdge_dist]
  cases edgeWeight es a b <;> simp [mlookup]

theorem initEdges_nxt (es : List Edge) (a b : V) :
    mlookup (InitEdges es).nxt (a, b) =
      if (edgeWeight es a b).isSome then some b else none := by
  rw [InitEdges, foldl_addEdge_nxt]
  cases edgeWeight es a b <;> simp [mlookup]

theorem mem_initEdges_vertices {es : List Edge} {x : V} :
    x ∈ (InitEdges es).vertices ↔ ∃ e ∈ es, x = e.1 ∨ x = e.2.1 := by
  rw [InitEdges, mem_foldl_addEdge_vertices]
  simp

theorem edgeWeight_some_exists {es : List Edge} {a b : V}
    (h : (edgeWeight es a b).isSome = true) : ∃ e ∈ es, e.1 = a ∧ e.2.1 = b := by
  induction es with
  | nil => simp [edgeWeight] at h
  | cons e es ih =>
    rw [edgeWeight] at h
    cases hw : edgeWeight es a b with
    | some w' =>
      obtain ⟨e', he', hp⟩ := ih (by simp [hw])
      exact ⟨e', List.mem_cons_of_mem _ he', hp⟩
    | none =>
      rw [hw] at h
      by_cases hc : e.1 = a ∧ e.2.1 = b
      · exact ⟨e, List.mem_cons_self _ _, hc⟩
      · rw [if_neg hc] at h
        simp at h

theorem edgeWeight_mem_vertices {es : List Edge} {a b : V} {w : ℚ}
    (h : edgeWeight es a b = some w) :
    a ∈ (InitEdges es).vertices ∧ b ∈ (InitEdges es).vertices := by
  obtain ⟨e, he, h1, h2⟩ := edgeWeight_some_exists (by rw [h]; rfl)
  constructor
  · exact mem_initEdges_vertices.2 ⟨e, he, Or.inl h1.symm⟩
  · exact mem_initEdges_vertices.2 ⟨e, he, Or.inr h2.symm⟩

theorem mem_pairsOf {vs : List V} {p : V × V} :
    p ∈ pairsOf vs ↔ p.1 ∈ vs ∧ p.2 ∈ vs := by
  simp only [pairsOf, List.mem_flatMap, List.mem_map]
  constructor
  · rintro ⟨l, hl, r, hr, rfl⟩
    exact ⟨hl, hr⟩
  · rintro ⟨h1, h2⟩
    exact ⟨p.1, h1, p.2, h2, rfl⟩

theorem foldl_initPair_lookup (ps : List (V × V)) (m : List ((V × V) × D)) (p : V × V) :
    mlookup (ps.foldl initPair m) p =
      if p ∈ ps then
        (if p.1 = p.2 then some (D.fin 0)
         else if (mlookup m p).isSome then mlookup m p else some D.inf)
      else mlookup m p := by
  induction ps generalizing m with
  | nil => simp
  | cons q rest ih =>
    rw [List.foldl_cons, ih]
    by_cases hpq : p = q
    · subst hpq
      by_cases hdiag : p.1 = p.2
      · have hkey : (p.1, p.1) = p := by
          obtain ⟨a, b⟩ := p
          simp only at hdiag
          subst hdiag
          rfl
        have hm : mlookup (initPair m p) p = some (D.fin 0) := by
          rw [initPair, if_pos hdiag, hkey, mlookup_massign_self]
        by_cases hmem : p ∈ rest <;> simp [hmem, hdiag, hm]
      · cases hold : mlookup m p with
        | some v =>
          have hm : mlookup (initPair m p) p = some v := by
            rw [initPair, if_neg hdiag, if_pos (by simp [hold])]
            exact hold
          by_cases hmem : p ∈ rest <;> simp [hmem, hdiag, hm, hold]
        | none =>
          have hm : mlookup (initPair m p) p = some D.inf := by
            rw [initPair, if_neg hdiag, if_neg (by simp [hold]), mlookup_massign_self]
          by_cases hmem : p ∈ rest <;> simp [hmem, hdiag, hm, hold]
    · have hm : mlookup (initPair m q) p = mlookup m p := by
        rw [initPair]
        by_cases hdiag : q.1 = q.2
        · rw [if_pos hdiag]
          refine mlookup_massign_ne fun hh => hpq ?_
          rw [hh]
          obtain ⟨a, b⟩ := q
          simp only at hdiag
          subst hdiag
          rfl
        · rw [if_neg hdiag]
          by_cases hs : (mlookup m q).isSome
          · rw [if_pos hs]
          · rw [if_neg hs]
            exact mlookup_massign_ne hpq
      by_cases hmem : p ∈ rest <;> simp [hmem, hpq, hm]

theorem mkFW_nxt (es : List Edge) : (mkFW es).nxt = (InitEdges es).nxt := rfl

theorem mkFW_vertices (es : List Edge) :
    (mkFW es).vertices = (InitEdges es).vertices := rfl

theorem mkFW_dist (es : List Edge) {i j : V}
    (hi : i ∈ (InitEdges es).vertices) (hj : j ∈ (InitEdges es).vertices) :
    mlookup (mkFW es).dist (i, j) =
      if i = j then some (D.fin 0)
      else
        match edgeWeight es i j with
        | some w => some (D.fin w)
        | none => some D.inf := by
  have hmem : (i, j) ∈ pairsOf (InitEdges es).vertices := mem_pairsOf.2 ⟨hi, hj⟩
  have hdist : (mkFW es).dist =
      (pairsOf (InitEdges es).vertices).foldl initPair (InitEdges es).dist := rfl
  rw [hdist, foldl_initPair_lookup, if_pos hmem]
  by_cases hdiag : i = j
  · simp [hdiag]
  · rw [if_neg hdiag, if_neg hdiag, initEdges_dist]
    cases edgeWeight es i j <;> simp

theorem mkFW_dist_none (es : List Edge) {i j : V}
    (h : i ∉ (InitEdges es).vertices ∨ j ∉ (InitEdges es).vertices) :
    mlookup (mkFW es).dist (i, j) = none := by
  have hmem : (i, j) ∉ pairsOf (InitEdges es).vertices := by
    rw [mem_pairsOf]
    rintro ⟨h1, h2⟩
    rcases h with h | h <;> exact h (by assumption)
  have hdist : (mkFW es).dist =
      (pairsOf (InitEdges es).vertices).foldl initPair (InitEdges es).dist := rfl
  rw [hdist, foldl_initPair_lookup, if_neg hmem, initEdges_dist]
  cases hw : edgeWeight es i j with
  | some w =>
    obtain ⟨h1, h2⟩ := edgeWeight_mem_vertices hw
    rcases h with h | h <;> exact absurd (by assumption) h
  | none => rfl

/-! ## The relaxation step on fully initialised tables -/

theorem mindex_fst {α : Type} (m : List ((V × V) × α)) (k : V × V) (d : α) :
    (mindex m k d).1 = (mlookup m k).getD d := by
  cases h : mlookup m k <;> simp [mindex, h]

theorem relaxStep_vertices (s : FWState) (k i j : V) :
    (relaxStep s k i j).vertices = s.vertices := by
  simp only [relaxStep]
  split <;> rfl

theorem foldl_relaxStep_vertices (k : V) (ps : List (V × V)) (t : FWState) :
    (ps.foldl (fun t p => relaxStep t k p.1 p.2) t).vertices = t.vertices := by
  induction ps generalizing t with
  | nil => rfl
  | cons p rest ih =>
    rw [List.foldl_cons, ih, relaxStep_vertices]

theorem relaxK_vertices (s : FWState) (k : V) : (relaxK s k).vertices = s.vertices := by
  rw [relaxK, foldl_relaxStep_vertices]

theorem foldl_relaxK_vertices (ks : List V) (t : FWState) :
    (ks.foldl relaxK t).vertices = t.vertices := by
  induction ks generalizing t with
  | nil => rfl
  | cons k rest ih =>
    rw [List.foldl_cons, ih, relaxK_vertices]

theorem generate_vertices (s : FWState) :
    (GenerateDistanceMatrix s).vertices = s.vertices := by
  rw [GenerateDistanceMatrix, foldl_relaxK_vertices]

theorem relaxStep_eq_clean {s : FWState} {k i j : V}
    (h1 : (mlookup s.dist (i, k)).isSome = true)
    (h2 : (mlookup s.dist (k, j)).isSome = true)
    (h3 : (mlookup s.dist (i, j)).isSome = true)
    (hn : Trig s k i j → (mlookup s.nxt (i, k)).isSome = true) :
    relaxStep s k i j =
      if Trig s k i j then
        { s with dist := massign s.dist (i, j) (distF s i k + distF s k j),
                 nxt := massign s.nxt (i, j) ((mlookup s.nxt (i, k)).getD "") }
      else s := by
  obtain ⟨v1, hv1⟩ := Option.isSome_iff_exists.mp h1
  obtain ⟨v2, hv2⟩ := Option.isSome_iff_exists.mp h2
  obtain ⟨v3, hv3⟩ := Option.isSome_iff_exists.mp h3
  have e1 : distF s i k = v1 := by rw [distF, hv1]; rfl
  have e2 : distF s k j = v2 := by rw [distF, hv2]; rfl
  have e3 : distF s i j = v3 := by rw [distF, hv3]; rfl
  have hT : Trig s k i j ↔ (v1 < D.inf ∧ v2 < D.inf ∧ v1 + v2 < v3) := by
    rw [Trig, e1, e2, e3]
  rw [relaxStep, mindex_present hv1, mindex_present hv2, mindex_present hv3]
  simp only
  by_cases hg : v1 < D.inf ∧ v2 < D.inf ∧ v1 + v2 < v3
  · rw [if_pos hg, if_pos (hT.mpr hg)]
    obtain ⟨vn, hvn⟩ := Option.isSome_iff_exists.mp (hn (hT.mpr hg))
    rw [mindex_present hvn, e1, e2, hvn]
    rfl
  · rw [if_neg hg, if_neg (fun h => hg (hT.mp h))]

theorem relaxStep_eq_R {s : FWState} {k i j : V}
    (h1 : (mlookup s.dist (i, k)).isSome = true)
    (h2 : (mlookup s.dist (k, j)).isSome = true)
    (h3 : (mlookup s.dist (i, j)).isSome = true)
    (hn : Trig s k i j → (mlookup s.nxt (i, k)).isSome = true) :
    relaxStep s k i j = relaxStepR s k i j := by
  rw [relaxStep_eq_clean h1 h2 h3 hn, relaxStepR]
  rfl

/-! ## Walks in the effective graph -/

theorem walk_append {es : List Edge} {i k j : V} {p q : List V} {w1 w2 : ℚ}
    (h1 : IsWalk es i k p w1) (h2 : IsWalk es k j q w2) :
    IsWalk es i j (p ++ q) (w1 + w2) := by
  induction h1 with
  | nil u =>
    rw [List.nil_append, zero_add]
    exact h2
  | cons he hw ih =>
    rw [List.cons_append, add_assoc]
    exact IsWalk.cons he (ih h2)

theorem walk_nil_inv {es : List Edge} {i j : V} {w : ℚ}
    (h : IsWalk es i j [] w) : i = j ∧ w = 0 := by
  cases h
  exact ⟨rfl, rfl⟩

theorem walk_mem_vertices {es : List Edge} {i j : V} {p : List V} {w : ℚ}
    (h : IsWalk es i j p w) : ∀ x ∈ p, x ∈ (InitEdges es).vertices := by
  induction h with
  | nil u => intro x hx; cases hx
  | cons he hw ih =>
    intro x hx
    rcases List.mem_cons.mp hx with rfl | hx
    · exact (edgeWeight_mem_vertices he).2
    · exact ih x hx

theorem walk_src_mem {es : List Edge} {i j : V} {p : List V} {w : ℚ}
    (h : IsWalk es i j p w) (hp : p ≠ []) : i ∈ (InitEdges es).vertices := by
  cases h with
  | nil u => exact absurd rfl hp
  | cons he hw => exact (edgeWeight_mem_vertices he).1

theorem walk_last {es : List Edge} {i j : V} {p : List V} {w : ℚ}
    (h : IsWalk es i j p w) (hp : p ≠ []) : p.getLast? = some j := by
  induction h with
  | nil u => exact absurd rfl hp
  | cons he hw ih =>
    rename_i u a v p' wa w'
    cases hq : p' with
    | nil =>
      obtain ⟨rfl, -⟩ := walk_nil_inv (hq ▸ hw)
      rfl
    | cons b rest =>
      rw [List.getLast?_cons_cons]
      have := ih (by simp [hq])
      rw [hq] at this
      exact this

theorem mem_of_getLast?_eq {α : Type} {l : List α} {a : α}
    (h : l.getLast? = some a) : a ∈ l := by
  obtain ⟨hne, heq⟩ := List.mem_getLast?_eq_getLast (Option.mem_def.mpr h)
  exact heq ▸ List.getLast_mem hne

theorem walk_dst_mem {es : List Edge} {i j : V} {p : List V} {w : ℚ}
    (h : IsWalk es i j p w) (hp : p ≠ []) : j ∈ (InitEdges es).vertices := by
  have hl := walk_last h hp
  exact walk_mem_vertices h j (mem_of_getLast?_eq hl)

/-! ## Consequences of one relaxation step -/

theorem mlookup_relaxStep_dist {s : FWState} {k i j : V}
    (h1 : (mlookup s.dist (i, k)).isSome = true)
    (h2 : (mlookup s.dist (k, j)).isSome = true)
    (h3 : (mlookup s.dist (i, j)).isSome = true)
    (hn : Trig s k i j → (mlookup s.nxt (i, k)).isSome = true) (a b : V) :
    mlookup (relaxStep s k i j).dist (a, b) =
      if (a, b) = (i, j) ∧ Trig s k i j then some (distF s i k + distF s k j)
      else mlookup s.dist (a, b) := by
  rw [relaxStep_eq_clean h1 h2 h3 hn]
  by_cases hg : Trig s k i j
  · rw [if_pos hg]
    by_cases hab : ((a : V), (b : V)) = (i, j)
    · rw [if_pos ⟨hab, hg⟩]
      show mlookup (massign s.dist (i, j) _) (a, b) = _
      rw [hab, mlookup_massign_self]
    · rw [if_neg (fun hc => hab hc.1)]
      exact mlookup_massign_ne hab
  · rw [if_neg hg, if_neg (fun hc => hg hc.2)]

theorem mlookup_relaxStep_nxt {s : FWState} {k i j : V}
    (h1 : (mlookup s.dist (i, k)).isSome = true)
    (h2 : (mlookup s.dist (k, j)).isSome = true)
    (h3 : (mlookup s.dist (i, j)).isSome = true)
    (hn : Trig s k i j → (mlookup s.nxt (i, k)).isSome = true) (a b : V) :
    mlookup (relaxStep s k i j).nxt (a, b) =
      if (a, b) = (i, j) ∧ Trig s k i j then some ((mlookup s.nxt (i, k)).getD "")
      else mlookup s.nxt (a, b) := by
  rw [relaxStep_eq_clean h1 h2 h3 hn]
  by_cases hg : Trig s k i j
  · rw [if_pos hg]
    by_cases hab : ((a : V), (b : V)) = (i, j)
    · rw [if_pos ⟨hab, hg⟩]
      show mlookup (massign s.nxt (i, j) _) (a, b) = _
      rw [hab, mlookup_massign_self]
    · rw [if_neg (fun hc => hab hc.1)]
      exact mlookup_massign_ne hab
  · rw [if_neg hg, if_neg (fun hc => hg hc.2)]

theorem distF_relaxStep {s : FWState} {k i j : V}
    (h1 : (mlookup s.dist (i, k)).isSome = true)
    (h2 : (mlookup s.dist (k, j)).isSome = true)
    (h3 : (mlookup s.dist (i, j)).isSome = true)
    (hn : Trig s k i j → (mlookup s.nxt (i, k)).isSome = true) (a b : V) :
    distF (relaxStep s k i j) a b =
      if (a, b) = (i, j) ∧ Trig s k i j then distF s i k + distF s k j
      else distF s a b := by
  rw [distF, mlookup_relaxStep_dist h1 h2 h3 hn]
  by_cases hc : ((a : V), (b : V)) = (i, j) ∧ Trig s k i j
  · rw [if_pos hc, if_pos hc]
    rfl
  · rw [if_neg hc, if_neg hc, distF]

theorem distF_relaxStep_le {s : FWState} {k i j : V}
    (h1 : (mlookup s.dist (i, k)).isSome = true)
    (h2 : (mlookup s.dist (k, j)).isSome = true)
    (h3 : (mlookup s.dist (i, j)).isSome = true)
    (hn : Trig s k i j → (mlookup s.nxt (i, k)).isSome = true) (a b : V) :
    distF (relaxStep s k i j) a b ≤ distF s a b := by
  rw [distF_relaxStep h1 h2 h3 hn]
  by_cases hc : ((a : V), (b : V)) = (i, j) ∧ Trig s k i j
  · rw [if_pos hc]
    have := hc.2.2.2
    have hab : ((a : V), (b : V)) = (i, j) := hc.1
    have ha : a = i := congrArg Prod.fst hab
    have hb : b = j := congrArg Prod.snd hab
    rw [ha, hb]
    exact D.le_of_lt this
  · rw [if_neg hc]
    exact D.le_refl _

theorem distF_relaxStep_visit {s : FWState} {k i j : V}
    (h1 : (mlookup s.dist (i, k)).isSome = true)
    (h2 : (mlookup s.dist (k, j)).isSome = true)
    (h3 : (mlookup s.dist (i, j)).isSome = true)
    (hn : Trig s k i j → (mlookup s.nxt (i, k)).isSome = true)
    (hf1 : distF s i k ≠ D.inf) (hf2 : distF s k j ≠ D.inf) :
    distF (relaxStep s k i j) i j ≤ distF s i k + distF s k j := by
  rw [distF_relaxStep h1 h2 h3 hn]
  by_cases hg : Trig s k i j
  · rw [if_pos ⟨rfl, hg⟩]
    exact D.le_refl _
  · rw [if_neg (fun hc => hg hc.2)]
    have : ¬ (distF s i k < D.inf ∧ distF s k j < D.inf ∧
        distF s i k + distF s k j < distF s i j) := hg
    push_neg at this
    exact D.not_lt.mp (this (D.lt_inf_iff.mpr hf1) (D.lt_inf_iff.mpr hf2))

/-! ## The invariant bundle through the relaxation pass -/

theorem distF_eq_of_lookup {s : FWState} {a b : V} {v : D}
    (h : mlookup s.dist (a, b) = some v) : distF s a b = v := by
  rw [distF, h]
  rfl

theorem lookup_eq_distF {s : FWState} {a b : V}
    (h : (mlookup s.dist (a, b)).isSome = true) :
    mlookup s.dist (a, b) = some (distF s a b) := by
  obtain ⟨v, hv⟩ := Option.isSome_iff_exists.mp h
  rw [hv, distF_eq_of_lookup hv]

theorem trig_nxt_present {es : List Edge} {s : FWState} {k i j : V}
    (hU : Uinv es s) (hk : k ∈ s.vertices) (hi : i ∈ s.vertices) (hj : j ∈ s.vertices) :
    Trig s k i j → (mlookup s.nxt (i, k)).isSome = true := by
  intro hg
  obtain ⟨hg1, hg2, hg3⟩ : distF s i k < D.inf ∧ distF s k j < D.inf ∧
      distF s i k + distF s k j < distF s i j := hg
  obtain ⟨hverts, hD, hK, hN, hDg, hW⟩ := hU
  have hik : (mlookup s.dist (i, k)).isSome = true := hD i hi k hk
  have hv : mlookup s.dist (i, k) = some (distF s i k) := lookup_eq_distF hik
  have hvne : distF s i k ≠ D.inf := by
    intro h
    rw [h] at hg1
    exact D.not_inf_lt _ hg1
  by_cases hik2 : i = k
  · subst hik2
    apply hDg i (distF s i i) hv
    obtain ⟨va, hva⟩ : ∃ a, distF s i i = D.fin a := by
      cases hh : distF s i i with
      | inf => exact absurd hh hvne
      | fin a => exact ⟨a, rfl⟩
    obtain ⟨vb, hvb⟩ : ∃ b, distF s i j = D.fin b := by
      cases hh : distF s i j with
      | inf =>
        rw [hh] at hg2
        exact absurd hg2 (D.not_inf_lt _)
      | fin b => exact ⟨b, rfl⟩
    rw [hva, hvb] at hg3
    have hlt : va + vb < vb := hg3
    rw [hva]
    intro hcon
    have hva0 : va = 0 := by injection hcon
    rw [hva0] at hlt
    simp at hlt
  · exact hN i k (distF s i k) hv hik2 hvne

theorem relaxStep_Uinv {es : List Edge} {s : FWState} {k i j : V}
    (hU : Uinv es s) (hk : k ∈ s.vertices) (hi : i ∈ s.vertices) (hj : j ∈ s.vertices) :
    Uinv es (relaxStep s k i j) := by
  have hn := trig_nxt_present hU hk hi hj
  obtain ⟨hverts, hD, hK, hN, hDg, hW⟩ := hU
  have h1 := hD i hi k hk
  have h2 := hD k hk j hj
  have h3 := hD i hi j hj
  have hvs := relaxStep_vertices s k i j
  refine ⟨by rw [hvs]; exact hverts, ?_, ?_, ?_, ?_, ?_⟩
  · intro a ha b hb
    rw [hvs] at ha hb
    rw [mlookup_relaxStep_dist h1 h2 h3 hn]
    by_cases hc : ((a : V), (b : V)) = (i, j) ∧ Trig s k i j
    · rw [if_pos hc]; rfl
    · rw [if_neg hc]; exact hD a ha b hb
  · intro a b hs
    rw [mlookup_relaxStep_dist h1 h2 h3 hn] at hs
    rw [hvs]
    by_cases hc : ((a : V), (b : V)) = (i, j) ∧ Trig s k i j
    · have ha : a = i := congrArg Prod.fst hc.1
      have hb : b = j := congrArg Prod.snd hc.1
      rw [ha, hb]
      exact ⟨hi, hj⟩
    · rw [if_neg hc] at hs
      exact hK a b hs
  · intro a b d hd hne hfin
    rw [mlookup_relaxStep_nxt h1 h2 h3 hn]
    by_cases hc : ((a : V), (b : V)) = (i, j) ∧ Trig s k i j
    · rw [if_pos hc]; rfl
    · rw [if_neg hc]
      rw [mlookup_relaxStep_dist h1 h2 h3 hn, if_neg hc] at hd
      exact hN a b d hd hne hfin
  · intro a d hd hne0
    rw [mlookup_relaxStep_nxt h1 h2 h3 hn]
    by_cases hc : ((a : V), (a : V)) = (i, j) ∧ Trig s k i j
    · rw [if_pos hc]; rfl
    · rw [if_neg hc]
      rw [mlookup_relaxStep_dist h1 h2 h3 hn, if_neg hc] at hd
      exact hDg a d hd hne0
  · intro a b q hq
    rw [mlookup_relaxStep_dist h1 h2 h3 hn] at hq
    by_cases hc : ((a : V), (b : V)) = (i, j) ∧ Trig s k i j
    · rw [if_pos hc] at hq
      have hsum : distF s i k + distF s k j = D.fin q := Option.some.inj hq
      obtain ⟨q1, hq1⟩ : ∃ x, distF s i k = D.fin x := by
        cases hh : distF s i k with
        | inf => rw [hh] at hsum; simp at hsum
        | fin x => exact ⟨x, rfl⟩
      obtain ⟨q2, hq2⟩ : ∃ x, distF s k j = D.fin x := by
        cases hh : distF s k j with
        | inf => rw [hh] at hsum; simp at hsum
        | fin x => exact ⟨x, rfl⟩
      rw [hq1, hq2] at hsum
      have hqq : q1 + q2 = q := by
        injection hsum
      obtain ⟨p1, hp1⟩ := hW i k q1 (by rw [lookup_eq_distF h1, hq1])
      obtain ⟨p2, hp2⟩ := hW k j q2 (by rw [lookup_eq_distF h2, hq2])
      have ha : a = i := congrArg Prod.fst hc.1
      have hb : b = j := congrArg Prod.snd hc.1
      rw [ha, hb, ← hqq]
      exact ⟨p1 ++ p2, walk_append hp1 hp2⟩
    · rw [if_neg hc] at hq
      exact hW a b q hq

theorem relaxStep_DecLe {es : List Edge} {s : FWState} {k i j : V}
    (hU : Uinv es s) (hk : k ∈ s.vertices) (hi : i ∈ s.vertices) (hj : j ∈ s.vertices) :
    DecLe s (relaxStep s k i j) := by
  have hn := trig_nxt_present hU hk hi hj
  obtain ⟨hverts, hD, hK, hN, hDg, hW⟩ := hU
  exact fun a b => distF_relaxStep_le (hD i hi k hk) (hD k hk j hj) (hD i hi j hj) hn a b

theorem foldl_pairs_facts (es : List Edge) (k : V) (ps : List (V × V)) :
    ∀ t : FWState, Uinv es t → k ∈ t.vertices →
      (∀ p ∈ ps, p.1 ∈ t.vertices ∧ p.2 ∈ t.vertices) →
      Uinv es (ps.foldl (fun t p => relaxStep t k p.1 p.2) t) ∧
      DecLe t (ps.foldl (fun t p => relaxStep t k p.1 p.2) t) ∧
      ps.foldl (fun t p => relaxStep t k p.1 p.2) t =
        ps.foldl (fun t p => relaxStepR t k p.1 p.2) t := by
  induction ps with
  | nil =>
    intro t hU hk hps
    exact ⟨hU, fun a b => D.le_refl _, rfl⟩
  | cons p rest ih =>
    intro t hU hk hps
    have hp := hps p (List.mem_cons_self _ _)
    have hU1 := relaxStep_Uinv hU hk hp.1 hp.2
    have hDec1 := relaxStep_DecLe hU hk hp.1 hp.2
    have hEq1 : relaxStep t k p.1 p.2 = relaxStepR t k p.1 p.2 := by
      obtain ⟨hverts, hD, hK, hN, hDg, hW⟩ := hU
      exact relaxStep_eq_R (hD p.1 hp.1 k hk) (hD k hk p.2 hp.2) (hD p.1 hp.1 p.2 hp.2)
        (trig_nxt_present ⟨hverts, hD, hK, hN, hDg, hW⟩ hk hp.1 hp.2)
    have hvs := relaxStep_vertices t k p.1 p.2
    obtain ⟨hU2, hDec2, hEq2⟩ := ih (relaxStep t k p.1 p.2) hU1
      (by rw [hvs]; exact hk)
      (fun q hq => by rw [hvs]; exact hps q (List.mem_cons_of_mem _ hq))
    refine ⟨?_, ?_, ?_⟩
    · rw [List.foldl_cons]; exact hU2
    · rw [List.foldl_cons]
      exact fun a b => D.le_trans (hDec2 a b) (hDec1 a b)
    · rw [List.foldl_cons, List.foldl_cons, hEq2, hEq1]

theorem relaxK_facts {es : List Edge} {t : FWState} {k : V}
    (hU : Uinv es t) (hk : k ∈ t.vertices) :
    Uinv es (relaxK t k) ∧ DecLe t (relaxK t k) ∧ relaxK t k = relaxKR t k := by
  have := foldl_pairs_facts es k (pairsOf t.vertices) t hU hk
    (fun p hp => mem_pairsOf.mp hp)
  exact this

theorem foldl_relaxK_facts (es : List Edge) (ks : List V) :
    ∀ t : FWState, Uinv es t → (∀ x ∈ ks, x ∈ t.vertices) →
      Uinv es (ks.foldl relaxK t) ∧ DecLe t (ks.foldl relaxK t) ∧
      ks.foldl relaxK t = ks.foldl relaxKR t := by
  induction ks with
  | nil =>
    intro t hU hks
    exact ⟨hU, fun a b => D.le_refl _, rfl⟩
  | cons k rest ih =>
    intro t hU hks
    have hk := hks k (List.mem_cons_self _ _)
    obtain ⟨hU1, hDec1, hEq1⟩ := relaxK_facts hU hk
    have hvs := relaxK_vertices t k
    obtain ⟨hU2, hDec2, hEq2⟩ := ih (relaxK t k) hU1
      (fun x hx => by rw [hvs]; exact hks x (List.mem_cons_of_mem _ hx))
    refine ⟨?_, ?_, ?_⟩
    · rw [List.foldl_cons]; exact hU2
    · rw [List.foldl_cons]
      exact fun a b => D.le_trans (hDec2 a b) (hDec1 a b)
    · rw [List.foldl_cons, List.foldl_cons, hEq2, hEq1]

theorem Uinv_mkFW (es : List Edge) : Uinv es (mkFW es) := by
  refine ⟨rfl, ?_, ?_, ?_, ?_, ?_⟩
  · intro a ha b hb
    rw [mkFW_dist es ha hb]
    by_cases hab : a = b
    · rw [if_pos hab]; rfl
    · rw [if_neg hab]
      cases edgeWeight es a b <;> rfl
  · intro a b hs
    by_contra hcon
    push_neg at hcon
    rcases Classical.em (a ∈ (InitEdges es).vertices) with ha | ha
    · rw [mkFW_dist_none es (Or.inr (hcon ha))] at hs
      simp at hs
    · rw [mkFW_dist_none es (Or.inl ha)] at hs
      simp at hs
  · intro a b d hd hne hfin
    have hs : (mlookup (mkFW es).dist (a, b)).isSome = true := by rw [hd]; rfl
    have hmem : a ∈ (InitEdges es).vertices ∧ b ∈ (InitEdges es).vertices := by
      by_contra hcon
      push_neg at hcon
      rcases Classical.em (a ∈ (InitEdges es).vertices) with ha | ha
      · rw [mkFW_dist_none es (Or.inr (hcon ha))] at hd
        simp at hd
      · rw [mkFW_dist_none es (Or.inl ha)] at hd
        simp at hd
    rw [mkFW_dist es hmem.1 hmem.2, if_neg hne] at hd
    rw [mkFW_nxt, initEdges_nxt]
    cases hw : edgeWeight es a b with
    | some w => simp
    | none =>
      rw [hw] at hd
      exact absurd (Option.some.inj hd).symm hfin
  · intro a d hd hne0
    exfalso
    rcases Classical.em (a ∈ (InitEdges es).vertices) with ha | ha
    · rw [mkFW_dist es ha ha, if_pos rfl] at hd
      exact hne0 (Option.some.inj hd).symm
    · rw [mkFW_dist_none es (Or.inl ha)] at hd
      simp at hd
  · intro a b q hq
    have hmem : a ∈ (InitEdges es).vertices ∧ b ∈ (InitEdges es).vertices := by
      by_contra hcon
      push_neg at hcon
      rcases Classical.em (a ∈ (InitEdges es).vertices) with ha | ha
      · rw [mkFW_dist_none es (Or.inr (hcon ha))] at hq
        simp at hq
      · rw [mkFW_dist_none es (Or.inl ha)] at hq
        simp at hq
    rw [mkFW_dist es hmem.1 hmem.2] at hq
    by_cases hab : a = b
    · rw [if_pos hab] at hq
      have : (0 : ℚ) = q := by injection Option.some.inj hq
      subst hab
      exact ⟨[], this ▸ IsWalk.nil a⟩
    · rw [if_neg hab] at hq
      cases hw : edgeWeight es a b with
      | some w =>
        rw [hw] at hq
        have : w = q := by injection Option.some.inj hq
        subst this
        exact ⟨[b], by simpa using IsWalk.cons hw (IsWalk.nil b)⟩
      | none =>
        rw [hw] at hq
        simp at hq

theorem generate_facts (es : List Edge) :
    Uinv es (GenerateDistanceMatrix (mkFW es)) ∧
    DecLe (mkFW es) (GenerateDistanceMatrix (mkFW es)) ∧
    GenerateDistanceMatrix (mkFW es) = GenerateDistanceMatrixR (mkFW es) := by
  have := foldl_relaxK_facts es (mkFW es).vertices (mkFW es) (Uinv_mkFW es)
    (fun x hx => hx)
  exact this

/-! ## Splitting walks at an intermediate vertex -/

theorem dropLast_cons_ne {α : Type} (a : α) {l : List α} (h : l ≠ []) :
    (a :: l).dropLast = a :: l.dropLast := by
  cases l with
  | nil => exact absurd rfl h
  | cons b r => rfl

theorem dropLast_append_ne {α : Type} (l1 : List α) {l2 : List α} (h : l2 ≠ []) :
    (l1 ++ l2).dropLast = l1 ++ l2.dropLast := by
  induction l1 with
  | nil => rfl
  | cons a r ih =>
    have hne : r ++ l2 ≠ [] := by
      intro hc
      rcases List.append_eq_nil.mp hc with ⟨-, h2⟩
      exact h h2
    rw [List.cons_append, dropLast_cons_ne a hne, List.cons_append, ih]

theorem mem_dropLast {α : Type} {l : List α} {x : α} (h : x ∈ l.dropLast) : x ∈ l := by
  induction l with
  | nil => cases h
  | cons a r ih =>
    cases r with
    | nil => cases h
    | cons b r' =>
      rw [dropLast_cons_ne a (by simp)] at h
      rcases List.mem_cons.mp h with rfl | h2
      · exact List.mem_cons_self _ _
      · exact List.mem_cons_of_mem _ (ih h2)

theorem walk_split_first {es : List Edge} {i j k : V} {p : List V} {w : ℚ}
    (hw : IsWalk es i j p w) (hk : k ∈ p.dropLast) :
    ∃ p1 w1 p2 w2, IsWalk es i k p1 w1 ∧ IsWalk es k j p2 w2 ∧
      k ∉ p1.dropLast ∧ p1 ≠ [] ∧ p = p1 ++ p2 ∧ w = w1 + w2 := by
  induction hw with
  | nil u => cases hk
  | cons he hw ih =>
    rename_i u a v p' wa w'
    by_cases hp' : p' = []
    · subst hp'
      cases hk
    · rw [dropLast_cons_ne a hp'] at hk
      by_cases hka : k = a
      · subst hka
        exact ⟨[k], wa + 0, p', w', IsWalk.cons he (IsWalk.nil k), hw,
          by simp, by simp, rfl, by ring⟩
      · have hk2 : k ∈ p'.dropLast := by
          rcases List.mem_cons.mp hk with h | h
          · exact absurd h hka
          · exact h
        obtain ⟨p1, w1, p2, w2, hw1, hw2, hnk, hne, heq, hwe⟩ := ih hk2
        refine ⟨a :: p1, wa + w1, p2, w2, IsWalk.cons he hw1, hw2, ?_, by simp, ?_, ?_⟩
        · rw [dropLast_cons_ne a hne]
          intro hmem
          rcases List.mem_cons.mp hmem with h | h
          · exact hka h
          · exact hnk h
        · rw [heq, List.cons_append]
        · rw [hwe]; ring

theorem walk_strip {es : List Edge} (hnnc : NoNegCycle es) :
    ∀ n : ℕ, ∀ {k j : V} {p : List V} {w : ℚ}, p.length ≤ n → IsWalk es k j p w →
      ∃ p' w', IsWalk es k j p' w' ∧ k ∉ p'.dropLast ∧ w' ≤ w ∧
        (∀ x ∈ p'.dropLast, x ∈ p.dropLast) := by
  intro n
  induction n with
  | zero =>
    intro k j p w hlen hw
    have hp : p = [] := List.length_eq_zero.mp (Nat.le_zero.mp hlen)
    subst hp
    exact ⟨[], w, hw, by simp, le_refl w, fun x hx => hx⟩
  | succ n ih =>
    intro k j p w hlen hw
    by_cases hk : k ∈ p.dropLast
    · obtain ⟨p1, w1, p2, w2, hw1, hw2, hnk, hne, heq, hwe⟩ := walk_split_first hw hk
      have h0 : 0 ≤ w1 := hnnc k p1 w1 hw1 hne
      have hlen2 : p2.length ≤ n := by
        subst heq
        rw [List.length_append] at hlen
        have hpos : 1 ≤ p1.length := List.length_pos.mpr hne
        omega
      obtain ⟨p', w', hw', hnk', hle, hsub⟩ := ih hlen2 hw2
      refine ⟨p', w', hw', hnk', by linarith, ?_⟩
      intro x hx
      have hx2 := hsub x hx
      have hp2ne : p2 ≠ [] := by
        intro hc
        rw [hc] at hx2
        cases hx2
      rw [heq, dropLast_append_ne p1 hp2ne]
      exact List.mem_append_right _ hx2
    · exact ⟨p, w, hw, hk, le_refl w, fun x hx => hx⟩

theorem walk_split {es : List Edge} (hnnc : NoNegCycle es) {i j k : V} {p : List V}
    {w : ℚ} (hw : IsWalk es i j p w) (hk : k ∈ p.dropLast) :
    ∃ p1 w1 p2 w2, IsWalk es i k p1 w1 ∧ IsWalk es k j p2 w2 ∧
      k ∉ p1.dropLast ∧ k ∉ p2.dropLast ∧
      (∀ x ∈ p1.dropLast, x ∈ p.dropLast) ∧ (∀ x ∈ p2.dropLast, x ∈ p.dropLast) ∧
      w1 + w2 ≤ w := by
  obtain ⟨p1, w1, p2, w2, hw1, hw2, hnk, hne, heq, hwe⟩ := walk_split_first hw hk
  obtain ⟨p2', w2', hw2', hnk2, hle2, hsub2⟩ := walk_strip hnnc p2.length (le_refl _) hw2
  refine ⟨p1, w1, p2', w2', hw1, hw2', hnk, hnk2, ?_, ?_, by linarith⟩
  · intro x hx
    by_cases hp2 : p2 = []
    · subst hp2
      rw [heq, List.append_nil]
      exact hx
    · rw [heq, dropLast_append_ne p1 hp2]
      exact List.mem_append_left _ (mem_dropLast hx)
  · intro x hx
    have hx2 := hsub2 x hx
    have hp2ne : p2 ≠ [] := by
      intro hc
      rw [hc] at hx2
      cases hx2
    rw [heq, dropLast_append_ne p1 hp2ne]
    exact List.mem_append_right _ hx2

/-! ## The lower-bound loop invariant of the relaxation pass -/

theorem Opt_mkFW {es : List Edge} (hnnc : NoNegCycle es) : Opt es [] (mkFW es) := by
  intro i j p w hi hj hw hsub
  have hpl : p.dropLast = [] := by
    cases hd : p.dropLast with
    | nil => rfl
    | cons x r =>
      have : x ∈ p.dropLast := by rw [hd]; exact List.mem_cons_self _ _
      cases hsub x this
  cases hw with
  | nil =>
    rw [distF_eq_of_lookup (by rw [mkFW_dist es hi hi, if_pos rfl])]
    simp
  | cons he hw' =>
    rename_i a p' wa w'
    have hp' : p' = [] := by
      by_contra hc
      rw [dropLast_cons_ne a hc] at hpl
      cases hpl
    subst hp'
    obtain ⟨rfl, rfl⟩ := walk_nil_inv hw'
    by_cases hij : i = a
    · subst hij
      have h0 : 0 ≤ wa + 0 := hnnc i [i] (wa + 0) (IsWalk.cons he (IsWalk.nil i)) (by simp)
      rw [distF_eq_of_lookup (by rw [mkFW_dist es hi hj, if_pos rfl])]
      simpa using h0
    · have hlook : mlookup (mkFW es).dist (i, a) = some (D.fin wa) := by
        rw [mkFW_dist es hi hj, if_neg hij, he]
      rw [distF_eq_of_lookup hlook]
      simp

theorem visit_lemma {es : List Edge} (hnnc : NoNegCycle es) {K : List V}
    {s t : FWState} {k i j : V}
    (hOpt : Opt es K s) (hU : Uinv es t) (hdec : DecLe s t)
    (hsv : t.vertices = s.vertices)
    (hk : k ∈ t.vertices) (hi : i ∈ t.vertices) (hj : j ∈ t.vertices) :
    ∀ p w, IsWalk es i j p w → (∀ x ∈ p.dropLast, x ∈ K ++ [k]) →
      distF (relaxStep t k i j) i j ≤ D.fin w := by
  intro p w hw hsub
  have hn := trig_nxt_present hU hk hi hj
  have hD := hU.2.1
  have h1 := hD i hi k hk
  have h2 := hD k hk j hj
  have h3 := hD i hi j hj
  have hiS : i ∈ s.vertices := hsv ▸ hi
  have hjS : j ∈ s.vertices := hsv ▸ hj
  have hkS : k ∈ s.vertices := hsv ▸ hk
  by_cases hkp : k ∈ p.dropLast
  · obtain ⟨p1, w1, p2, w2, hw1, hw2, hnk1, hnk2, hsub1, hsub2, hwle⟩ :=
      walk_split hnnc hw hkp
    have hsubK1 : ∀ x ∈ p1.dropLast, x ∈ K := by
      intro x hx
      rcases List.mem_append.mp (hsub x (hsub1 x hx)) with h | h
      · exact h
      · exact absurd ((List.mem_singleton.mp h) ▸ hx) hnk1
    have hsubK2 : ∀ x ∈ p2.dropLast, x ∈ K := by
      intro x hx
      rcases List.mem_append.mp (hsub x (hsub2 x hx)) with h | h
      · exact h
      · exact absurd ((List.mem_singleton.mp h) ▸ hx) hnk2
    have hT1 : distF t i k ≤ D.fin w1 :=
      D.le_trans (hdec i k) (hOpt i k p1 w1 hiS hkS hw1 hsubK1)
    have hT2 : distF t k j ≤ D.fin w2 :=
      D.le_trans (hdec k j) (hOpt k j p2 w2 hkS hjS hw2 hsubK2)
    have hf1 : distF t i k ≠ D.inf := by
      intro h
      rw [h] at hT1
      exact D.not_inf_le_fin _ hT1
    have hf2 : distF t k j ≠ D.inf := by
      intro h
      rw [h] at hT2
      exact D.not_inf_le_fin _ hT2
    have hstep := distF_relaxStep_visit h1 h2 h3 hn hf1 hf2
    have hadd : distF t i k + distF t k j ≤ D.fin (w1 + w2) := by
      have := D.add_le hT1 hT2
      simpa using this
    exact D.le_trans hstep (D.le_trans hadd (D.fin_le_fin.mpr hwle))
  · have hsubK : ∀ x ∈ p.dropLast, x ∈ K := by
      intro x hx
      rcases List.mem_append.mp (hsub x hx) with h | h
      · exact h
      · exact absurd ((List.mem_singleton.mp h) ▸ hx) hkp
    exact D.le_trans (distF_relaxStep_le h1 h2 h3 hn i j)
      (D.le_trans (hdec i j) (hOpt i j p w hiS hjS hw hsubK))

theorem foldl_pairs_vis {es : List Edge} (hnnc : NoNegCycle es) {K : List V}
    {s : FWState} {k : V} (hOpt : Opt es K s) (ps : List (V × V)) :
    ∀ t : FWState, Uinv es t → DecLe s t → t.vertices = s.vertices →
      k ∈ t.vertices → (∀ p ∈ ps, p.1 ∈ t.vertices ∧ p.2 ∈ t.vertices) →
      Uinv es (ps.foldl (fun t p => relaxStep t k p.1 p.2) t) ∧
      DecLe t (ps.foldl (fun t p => relaxStep t k p.1 p.2) t) ∧
      (ps.foldl (fun t p => relaxStep t k p.1 p.2) t).vertices = s.vertices ∧
      ∀ q ∈ ps, ∀ p w, IsWalk es q.1 q.2 p w → (∀ x ∈ p.dropLast, x ∈ K ++ [k]) →
        distF (ps.foldl (fun t p => relaxStep t k p.1 p.2) t) q.1 q.2 ≤ D.fin w := by
  induction ps with
  | nil =>
    intro t hU hdec hsv hk hps
    exact ⟨hU, fun a b => D.le_refl _, hsv, fun q hq => by cases hq⟩
  | cons q rest ih =>
    intro t hU hdec hsv hk hps
    have hq := hps q (List.mem_cons_self _ _)
    have hvis1 := visit_lemma hnnc hOpt hU hdec hsv hk hq.1 hq.2
    have hU1 := relaxStep_Uinv hU hk hq.1 hq.2
    have hdec1 := relaxStep_DecLe hU hk hq.1 hq.2
    have hvs := relaxStep_vertices t k q.1 q.2
    obtain ⟨hU2, hdec2, hsv2, hvis2⟩ := ih (relaxStep t k q.1 q.2) hU1
      (fun a b => D.le_trans (hdec1 a b) (hdec a b))
      (by rw [hvs]; exact hsv)
      (by rw [hvs]; exact hk)
      (fun r hr => by rw [hvs]; exact hps r (List.mem_cons_of_mem _ hr))
    refine ⟨by rw [List.foldl_cons]; exact hU2,
      by rw [List.foldl_cons]; exact fun a b => D.le_trans (hdec2 a b) (hdec1 a b),
      by rw [List.foldl_cons]; exact hsv2, ?_⟩
    intro r hr p w hw hsub
    rw [List.foldl_cons]
    rcases List.mem_cons.mp hr with rfl | hrmem
    · exact D.le_trans (hdec2 r.1 r.2) (hvis1 p w hw hsub)
    · exact hvis2 r hrmem p w hw hsub

theorem relaxK_opt {es : List Edge}(hnnc : NoNegCycle es) {K : List V} {s : FWState}
    {k : V} (hU : Uinv es s) (hOpt : Opt es K s) (hk : k ∈ s.vertices) :
    Uinv es (relaxK s k) ∧ Opt es (K ++ [k]) (relaxK s k) := by
  obtain ⟨hU2, hdec2, hsv2, hvis2⟩ := foldl_pairs_vis hnnc hOpt (pairsOf s.vertices) s
    hU (fun a b => D.le_refl _) rfl hk (fun p hp => mem_pairsOf.mp hp)
  refine ⟨hU2, ?_⟩
  intro i j p w hi hj hw hsub
  have hij : (i, j) ∈ pairsOf s.vertices := by
    rw [relaxK] at hi hj
    rw [foldl_relaxStep_vertices] at hi hj
    exact mem_pairsOf.mpr ⟨hi, hj⟩
  exact hvis2 (i, j) hij p w hw hsub

theorem foldl_relaxK_opt {es : List Edge} (hnnc : NoNegCycle es) (ks : List V) :
    ∀ (K : List V) (t : FWState), Uinv es t → Opt es K t → (∀ x ∈ ks, x ∈ t.vertices) →
      Uinv es (ks.foldl relaxK t) ∧ Opt es (K ++ ks) (ks.foldl relaxK t) := by
  induction ks with
  | nil =>
    intro K t hU hOpt hks
    rw [List.append_nil]
    exact ⟨hU, hOpt⟩
  | cons k rest ih =>
    intro K t hU hOpt hks
    have hk := hks k (List.mem_cons_self _ _)
    obtain ⟨hU1, hOpt1⟩ := relaxK_opt hnnc hU hOpt hk
    have hvs := relaxK_vertices t k
    obtain ⟨hU2, hOpt2⟩ := ih (K ++ [k]) (relaxK t k) hU1 hOpt1
      (fun x hx => by rw [hvs]; exact hks x (List.mem_cons_of_mem _ hx))
    rw [List.foldl_cons]
    refine ⟨hU2, ?_⟩
    rw [show K ++ k :: rest = (K ++ [k]) ++ rest from by simp]
    exact hOpt2

/-! ## Facts about the fully relaxed table -/

theorem Uinv_generate (es : List Edge) : Uinv es (GenerateDistanceMatrix (mkFW es)) :=
  (generate_facts es).1

theorem generate_verts_init (es : List Edge) :
    (GenerateDistanceMatrix (mkFW es)).vertices = (InitEdges es).vertices := by
  rw [generate_vertices]
  rfl

theorem opt_generate {es : List Edge} (hnnc : NoNegCycle es) :
    Opt es (mkFW es).vertices (GenerateDistanceMatrix (mkFW es)) := by
  have h := foldl_relaxK_opt hnnc (mkFW es).vertices [] (mkFW es) (Uinv_mkFW es)
    (Opt_mkFW hnnc) (fun x hx => hx)
  rw [List.nil_append] at h
  exact h.2

theorem final_lower {es : List Edge} (hnnc : NoNegCycle es) {u v : V} {p : List V}
    {w : ℚ} (hw : IsWalk es u v p w)
    (hu : u ∈ (InitEdges es).vertices) (hv : v ∈ (InitEdges es).vertices) :
    sigma es u v ≤ D.fin w := by
  have hO := opt_generate hnnc
  apply hO u v p w (by rw [generate_verts_init]; exact hu)
    (by rw [generate_verts_init]; exact hv) hw
  intro x hx
  show x ∈ (InitEdges es).vertices
  exact walk_mem_vertices hw x (mem_dropLast hx)

theorem final_realizable {es : List Edge} {u v : V} {q : ℚ}
    (h : mlookup (GenerateDistanceMatrix (mkFW es)).dist (u, v) = some (D.fin q)) :
    ∃ p, IsWalk es u v p q :=
  (Uinv_generate es).2.2.2.2.2 u v q h

theorem final_diag {es : List Edge} (hnnc : NoNegCycle es) {v : V}
    (hv : v ∈ (InitEdges es).vertices) :
    mlookup (GenerateDistanceMatrix (mkFW es)).dist (v, v) = some (D.fin 0) := by
  have hU := Uinv_generate es
  have hvF : v ∈ (GenerateDistanceMatrix (mkFW es)).vertices := by
    rw [generate_verts_init]
    exact hv
  have hsome := hU.2.1 v hvF v hvF
  have hlook := lookup_eq_distF hsome
  have hle : sigma es v v ≤ D.fin 0 := final_lower hnnc (IsWalk.nil v) hv hv
  obtain ⟨q, hq, hq0'⟩ := D.le_fin_iff.mp hle
  obtain ⟨p, hp⟩ := final_realizable (by rw [hlook]; exact congrArg some hq)
  have hq0 : 0 ≤ q := by
    by_cases hpnil : p = []
    · subst hpnil
      obtain ⟨-, rfl⟩ := walk_nil_inv hp
      exact le_refl 0
    · exact hnnc v p q hp hpnil
  have hq00 : q = 0 := le_antisymm hq0' hq0
  rw [hlook]
  show some (sigma es v v) = _
  rw [hq, hq00]

theorem final_presence {es : List Edge} {a b : V}
    (ha : a ∈ (InitEdges es).vertices) (hb : b ∈ (InitEdges es).vertices) :
    mlookup (GenerateDistanceMatrix (mkFW es)).dist (a, b) = some (sigma es a b) := by
  have hU := Uinv_generate es
  exact lookup_eq_distF (hU.2.1 a (by rw [generate_verts_init]; exact ha)
    b (by rw [generate_verts_init]; exact hb))

theorem final_triangle {es : List Edge} (hnnc : NoNegCycle es) {a b c : V}
    (ha : a ∈ (InitEdges es).vertices) (hb : b ∈ (InitEdges es).vertices)
    (hc : c ∈ (InitEdges es).vertices) :
    sigma es a c ≤ sigma es a b + sigma es b c := by
  cases h1 : sigma es a b with
  | inf => simp
  | fin q1 =>
    cases h2 : sigma es b c with
    | inf => simp
    | fin q2 =>
      obtain ⟨p1, hp1⟩ := final_realizable (by rw [final_presence ha hb, h1])
      obtain ⟨p2, hp2⟩ := final_realizable (by rw [final_presence hb hc, h2])
      have := final_lower hnnc (walk_append hp1 hp2) ha hc
      simpa using this

theorem final_nostep {es : List Edge} (hnnc : NoNegCycle es) {k i j : V}
    (hk : k ∈ (InitEdges es).vertices) (hi : i ∈ (InitEdges es).vertices)
    (hj : j ∈ (InitEdges es).vertices) :
    ¬ Trig (GenerateDistanceMatrix (mkFW es)) k i j := by
  intro hg
  have htri : sigma es i j ≤ sigma es i k + sigma es k j := final_triangle hnnc hi hk hj
  have hlt : sigma es i k + sigma es k j < sigma es i j := hg.2.2
  exact absurd hlt (D.not_lt.mpr htri)

theorem foldl_fix {β : Type} (f : FWState → β → FWState) (l : List β) (t : FWState)
    (h : ∀ x ∈ l, f t x = t) : l.foldl f t = t := by
  induction l with
  | nil => rfl
  | cons x r ih =>
    rw [List.foldl_cons, h x (List.mem_cons_self _ _)]
    exact ih (fun y hy => h y (List.mem_cons_of_mem _ hy))

theorem generate_idem {es : List Edge} (hnnc : NoNegCycle es) :
    GenerateDistanceMatrix (GenerateDistanceMatrix (mkFW es)) =
      GenerateDistanceMatrix (mkFW es) := by
  have hU := Uinv_generate es
  have hstep : ∀ k i j : V, k ∈ (GenerateDistanceMatrix (mkFW es)).vertices →
      i ∈ (GenerateDistanceMatrix (mkFW es)).vertices →
      j ∈ (GenerateDistanceMatrix (mkFW es)).vertices →
      relaxStep (GenerateDistanceMatrix (mkFW es)) k i j =
        GenerateDistanceMatrix (mkFW es) := by
    intro k i j hk hi hj
    rw [relaxStep_eq_clean (hU.2.1 i hi k hk) (hU.2.1 k hk j hj) (hU.2.1 i hi j hj)
      (trig_nxt_present hU hk hi hj)]
    rw [if_neg (final_nostep hnnc (by rw [← generate_verts_init]; exact hk)
      (by rw [← generate_verts_init]; exact hi) (by rw [← generate_verts_init]; exact hj))]
  have hrelaxK : ∀ k : V, k ∈ (GenerateDistanceMatrix (mkFW es)).vertices →
      relaxK (GenerateDistanceMatrix (mkFW es)) k = GenerateDistanceMatrix (mkFW es) := by
    intro k hk
    rw [relaxK]
    apply foldl_fix
    intro p hp
    obtain ⟨h1, h2⟩ := mem_pairsOf.mp hp
    exact hstep k p.1 p.2 hk h1 h2
  rw [show GenerateDistanceMatrix (GenerateDistanceMatrix (mkFW es)) =
      (GenerateDistanceMatrix (mkFW es)).vertices.foldl relaxK
        (GenerateDistanceMatrix (mkFW es)) from rfl]
  exact foldl_fix relaxK _ _ (fun k hk => hrelaxK k hk)

/-! ## The substring check and the walk of `GetPath` -/

theorem strContains_iff {s pat : String} :
    strContains s pat = true ↔ pat.data <:+: s.data := by
  rw [strContains, List.any_eq_true]
  constructor
  · rintro ⟨t, ht, hpre⟩
    have hsuf : t <:+ s.data := (List.mem_tails t s.data).mp ht
    have hp : pat.data <+: t := by rwa [ List.isPrefixOf_iff_prefix] at hpre
    exact List.infix_iff_prefix_suffix.mpr ⟨t, hp, hsuf⟩
  · intro h
    obtain ⟨t, hp, hsuf⟩ := List.infix_iff_prefix_suffix.mp h
    exact ⟨t, (List.mem_tails t s.data).mpr hsuf,
      by rwa [ List.isPrefixOf_iff_prefix]⟩

theorem joinDash_cons (a : V) {l : List V} (h : l ≠ []) :
    joinDash (a :: l) = a ++ "-" ++ joinDash l := by
  cases l with
  | nil => exact absurd rfl h
  | cons b r => rfl

theorem mem_joinDash_sub {l : List V} {a : V} (h : a ∈ l) :
    a.data <:+: (joinDash l).data := by
  induction l with
  | nil => cases h
  | cons b r ih =>
    rcases List.mem_cons.mp h with rfl | hmem
    · by_cases hr : r = []
      · subst hr
        exact List.infix_rfl
      · rw [joinDash_cons a hr]
        have hp : a.data <+: (a ++ "-" ++ joinDash r).data := by
          rw [String.data_append, String.data_append, List.append_assoc]
          exact List.prefix_append _ _
        exact hp.isInfix
    · have hr : r ≠ [] := by
        intro hc
        rw [hc] at hmem
        cases hmem
      rw [joinDash_cons b hr]
      have hsuf : (joinDash r).data <:+ (b ++ "-" ++ joinDash r).data := by
        rw [String.data_append]
        exact List.suffix_append _ _
      exact (ih hmem).trans hsuf.isInfix

theorem strContains_of_mem {l : List V} {a : V} (h : a ∈ l) :
    strContains (joinDash l) a = true :=
  strContains_iff.mpr (mem_joinDash_sub h)

theorem mlookup_val_mem {α : Type} {m : List ((V × V) × α)} {k : V × V} {v : α}
    (h : mlookup m k = some v) : v ∈ m.map (fun e => e.2) := by
  induction m with
  | nil => cases h
  | cons e rest ih =>
    rw [mlookup] at h
    by_cases hc : e.1 = k
    · rw [if_pos hc] at h
      rw [List.map_cons]
      exact (Option.some.inj h) ▸ List.mem_cons_self _ _
    · rw [if_neg hc] at h
      exact List.mem_cons_of_mem _ (ih h)

theorem filter_length_mono {α : Type} (l : List α) (p q : α → Bool)
    (h : ∀ x, p x = true → q x = true) :
    (l.filter p).length ≤ (l.filter q).length := by
  induction l with
  | nil => exact Nat.le_refl 0
  | cons a r ih =>
    rw [List.filter_cons, List.filter_cons]
    by_cases hp : p a = true
    · rw [if_pos hp, if_pos (h a hp)]
      simpa using ih
    · rw [if_neg hp]
      by_cases hq : q a = true
      · rw [if_pos hq]
        exact Nat.le_succ_of_le ih
      · rw [if_neg hq]
        exact ih

theorem filter_visited_decrease (l visited : List V) (c : V)
    (hc : c ∈ l) (hnv : c ∉ visited) :
    (l.filter (fun x => decide (x ∉ visited ++ [c]))).length <
      (l.filter (fun x => decide (x ∉ visited))).length := by
  induction l with
  | nil => cases hc
  | cons a r ih =>
    rw [List.filter_cons, List.filter_cons]
    by_cases hac : a = c
    · subst hac
      rw [if_neg (by simp), if_pos (by simp [hnv])]
      have hmono := filter_length_mono r (fun x => decide (x ∉ visited ++ [a]))
        (fun x => decide (x ∉ visited))
        (by
          intro x hx
          simp only [decide_eq_true_eq] at hx ⊢
          intro hmem
          exact hx (List.mem_append_left _ hmem))
      simpa using Nat.lt_succ_of_le hmono
    · have hcr : c ∈ r := by
        rcases List.mem_cons.mp hc with h | h
        · exact absurd h.symm hac
        · exact h
      have hsame : (decide (a ∉ visited ++ [c]) : Bool) = decide (a ∉ visited) := by
        by_cases ha : a ∈ visited
        · simp [ha]
        · simp [ha, List.mem_append, hac]
      rw [hsame]
      by_cases ha : (decide (a ∉ visited) : Bool) = true
      · rw [if_pos ha, if_pos ha]
        simpa using ih hcr
      · rw [if_neg ha, if_neg ha]
        exact ih hcr

theorem getPathAux_mono {nxt : List ((V × V) × V)} {dst : V} :
    ∀ (f : ℕ) {f' : ℕ} (visited : List V) (current : V)
      {r : Except PathErr (List V)},
      getPathAux nxt dst f visited current = some r → f ≤ f' →
      getPathAux nxt dst f' visited current = some r := by
  intro f
  induction f with
  | zero =>
    intro f' visited current r h
    cases h
  | succ f ih =>
    intro f' visited current r h hle
    cases f' with
    | zero => cases hle
    | succ f'' =>
      have hle2 : f ≤ f'' := Nat.le_of_succ_le_succ hle
      rw [getPathAux] at h
      rw [getPathAux]
      by_cases h1 : current = dst
      · rw [if_pos h1] at h ⊢
        exact h
      · rw [if_neg h1] at h ⊢
        cases hl : mlookup nxt (current, dst) with
        | none =>
          rw [hl] at h
          dsimp only at h ⊢
          exact h
        | some c =>
          rw [hl] at h
          dsimp only at h ⊢
          by_cases h2 : c = dst
          · rw [if_pos h2] at h ⊢
            exact h
          · rw [if_neg h2] at h ⊢
            by_cases h3 : strContains (joinDash visited) c = true
            · rw [if_pos h3] at h ⊢
              exact h
            · rw [if_neg h3] at h ⊢
              exact ih _ _ h hle2

theorem getPathAux_isSome {nxt : List ((V × V) × V)} {dst : V} :
    ∀ (f : ℕ) (visited : List V) (current : V),
      ((nxt.map (fun e => e.2)).dedup.filter
        (fun x => decide (x ∉ visited))).length + 1 ≤ f →
      (getPathAux nxt dst f visited current).isSome = true := by
  intro f
  induction f with
  | zero =>
    intro visited current hlen
    cases hlen
  | succ f ih =>
    intro visited current hlen
    rw [getPathAux]
    by_cases h1 : current = dst
    · rw [if_pos h1]
      rfl
    · rw [if_neg h1]
      cases hl : mlookup nxt (current, dst) with
      | none => rfl
      | some c =>
        dsimp only
        by_cases h2 : c = dst
        · rw [if_pos h2]
          rfl
        · rw [if_neg h2]
          by_cases h3 : strContains (joinDash visited) c = true
          · rw [if_pos h3]
            rfl
          · rw [if_neg h3]
            apply ih
            have hcv : c ∉ visited := fun hmem => h3 (strContains_of_mem hmem)
            have hcd : c ∈ (nxt.map (fun e => e.2)).dedup :=
              List.mem_dedup.mpr (mlookup_val_mem hl)
            have := filter_visited_decrease ((nxt.map (fun e => e.2)).dedup)
              visited c hcd hcv
            omega

theorem pathFuel_enough (nxt : List ((V × V) × V)) (dst u : V) :
    (getPathAux nxt dst (pathFuel nxt) [u] u).isSome = true := by
  apply getPathAux_isSome
  rw [pathFuel]
  have hle : ((nxt.map (fun e => e.2)).dedup.filter
      (fun x => decide (x ∉ [u]))).length ≤ (nxt.map (fun e => e.2)).dedup.length :=
    List.length_filter_le _ _
  omega

theorem getPath_eq_aux {s : FWState} {start dst : V} {d : D}
    (hlook : mlookup s.dist (start, dst) = some d) (hne : d ≠ D.inf) :
    ∃ r, getPathAux s.nxt dst (pathFuel s.nxt) [start] start = some r ∧
      GetPath s start dst = r.map PathRes.path := by
  obtain ⟨r, hr⟩ := Option.isSome_iff_exists.mp (pathFuel_enough s.nxt dst start)
  refine ⟨r, hr, ?_⟩
  rw [GetPath, hlook]
  simp only [if_neg hne, hr]

/-! ## The next-hop invariant under absence of negative cycles -/

theorem dinf_le_iff {b : D} : D.inf ≤ b ↔ b = D.inf := by
  cases b <;> simp

theorem SigLe_mkFW (es : List Edge) : SigLe es (mkFW es) := by
  intro i j
  exact (generate_facts es).2.1 i j

theorem HopInv_mkFW {es : List Edge} (hnnc : NoNegCycle es) : HopInv es (mkFW es) := by
  intro i j m d hij hlook hdne hnlook
  rw [mkFW_nxt, initEdges_nxt] at hnlook
  by_cases hew : (edgeWeight es i j).isSome = true
  · rw [if_pos hew] at hnlook
    obtain ⟨w0, hw0⟩ := Option.isSome_iff_exists.mp hew
    have hm : m = j := (Option.some.inj hnlook).symm
    have hmem := edgeWeight_mem_vertices hw0
    have hd : d = D.fin w0 := by
      rw [mkFW_dist es hmem.1 hmem.2, if_neg hij, hw0] at hlook
      exact (Option.some.inj hlook).symm
    refine ⟨w0, by rw [hm]; exact hw0, ?_⟩
    have hsj : sigma es m j = D.fin 0 := by
      rw [hm]
      exact distF_eq_of_lookup (final_diag hnnc hmem.2)
    rw [hsj, hd]
    simp

  · rw [if_neg hew] at hnlook
    cases hnlook

theorem relaxStep_SigLe {es : List Edge} {s : FWState} {k i j : V}
    (hnnc : NoNegCycle es) (hU : Uinv es s) (hS : SigLe es s)
    (hk : k ∈ s.vertices) (hi : i ∈ s.vertices) (hj : j ∈ s.vertices) :
    SigLe es (relaxStep s k i j) := by
  have hn := trig_nxt_present hU hk hi hj
  have hD := hU.2.1
  have h1 := hD i hi k hk
  have h2 := hD k hk j hj
  have h3 := hD i hi j hj
  have hiI : i ∈ (InitEdges es).vertices := hU.1 ▸ hi
  have hjI : j ∈ (InitEdges es).vertices := hU.1 ▸ hj
  have hkI : k ∈ (InitEdges es).vertices := hU.1 ▸ hk
  intro a b
  rw [distF_relaxStep h1 h2 h3 hn]
  by_cases hc : ((a : V), (b : V)) = (i, j) ∧ Trig s k i j
  · rw [if_pos hc]
    have ha : a = i := congrArg Prod.fst hc.1
    have hb : b = j := congrArg Prod.snd hc.1
    rw [ha, hb]
    exact D.le_trans (final_triangle hnnc hiI hkI hjI) (D.add_le (hS i k) (hS k j))
  · rw [if_neg hc]
    exact hS a b

theorem relaxStep_HopInv {es : List Edge} {s : FWState} {k i j : V}
    (hnnc : NoNegCycle es) (hU : Uinv es s) (hS : SigLe es s) (hH : HopInv es s)
    (hk : k ∈ s.vertices) (hi : i ∈ s.vertices) (hj : j ∈ s.vertices) :
    HopInv es (relaxStep s k i j) := by
  have hn := trig_nxt_present hU hk hi hj
  have hD := hU.2.1
  have h1 := hD i hi k hk
  have h2 := hD k hk j hj
  have h3 := hD i hi j hj
  have hiI : i ∈ (InitEdges es).vertices := hU.1 ▸ hi
  have hjI : j ∈ (InitEdges es).vertices := hU.1 ▸ hj
  have hkI : k ∈ (InitEdges es).vertices := hU.1 ▸ hk
  intro a b m d hab hlook hdne hnlook
  rw [mlookup_relaxStep_dist h1 h2 h3 hn] at hlook
  rw [mlookup_relaxStep_nxt h1 h2 h3 hn] at hnlook
  by_cases hc : ((a : V), (b : V)) = (i, j) ∧ Trig s k i j
  · rw [if_pos hc] at hlook hnlook
    have ha : a = i := congrArg Prod.fst hc.1
    have hb : b = j := congrArg Prod.snd hc.1
    obtain ⟨m0, hm0⟩ := Option.isSome_iff_exists.mp (hn hc.2)
    have hmm : m = m0 := by
      rw [hm0] at hnlook
      exact (Option.some.inj hnlook).symm
    have hik : i ≠ k := by
      intro hik
      subst hik
      obtain ⟨hg1, hg2, hg3⟩ : distF s i i < D.inf ∧ distF s i j < D.inf ∧
          distF s i i + distF s i j < distF s i j := hc.2
      obtain ⟨a0, ha0⟩ : ∃ x, distF s i i = D.fin x := by
        cases hh : distF s i i with
        | inf => rw [hh] at hg1; exact absurd hg1 (D.not_inf_lt _)
        | fin x => exact ⟨x, rfl⟩
      obtain ⟨b0, hb0⟩ : ∃ x, distF s i j = D.fin x := by
        cases hh : distF s i j with
        | inf => rw [hh] at hg2; exact absurd hg2 (D.not_inf_lt _)
        | fin x => exact ⟨x, rfl⟩
      rw [ha0, hb0] at hg3
      have hlt : a0 + b0 < b0 := hg3
      have hge : (0 : ℚ) ≤ a0 := by
        have hs0 := hS i i
        have hsig : sigma es i i = D.fin 0 := distF_eq_of_lookup (final_diag hnnc hiI)
        rw [hsig, ha0] at hs0
        exact hs0
      linarith
    have hfik : distF s i k ≠ D.inf := by
      obtain ⟨hg1, -, -⟩ : distF s i k < D.inf ∧ distF s k j < D.inf ∧
          distF s i k + distF s k j < distF s i j := hc.2
      intro h
      rw [h] at hg1
      exact D.not_inf_lt _ hg1
    obtain ⟨w, hedge, hle⟩ := hH i k m0 (distF s i k) hik (lookup_eq_distF h1) hfik hm0
    have hmI : m0 ∈ (InitEdges es).vertices := (edgeWeight_mem_vertices hedge).2
    refine ⟨w, by rw [hmm, ha]; exact hedge, ?_⟩
    have hd : d = distF s i k + distF s k j := (Option.some.inj hlook).symm
    rw [hd, hmm, hb]
    have s1 : D.fin w + sigma es m0 j ≤ D.fin w + (sigma es m0 k + sigma es k j) :=
      D.add_le (D.le_refl _) (final_triangle hnnc hmI hkI hjI)
    have s2 : D.fin w + (sigma es m0 k + sigma es k j) ≤ distF s i k + distF s k j := by
      rw [← D.add_assoc]
      exact D.le_trans (D.add_le hle (D.le_refl _)) (D.add_le (D.le_refl _) (hS k j))
    exact D.le_trans s1 s2
  · rw [if_neg hc] at hlook hnlook
    exact hH a b m d hab hlook hdne hnlook

theorem foldl_pairs_hop {es : List Edge} (hnnc : NoNegCycle es) (k : V)
    (ps : List (V × V)) :
    ∀ t : FWState, Uinv es t → SigLe es t → HopInv es t → k ∈ t.vertices →
      (∀ p ∈ ps, p.1 ∈ t.vertices ∧ p.2 ∈ t.vertices) →
      Uinv es (ps.foldl (fun t p => relaxStep t k p.1 p.2) t) ∧
      SigLe es (ps.foldl (fun t p => relaxStep t k p.1 p.2) t) ∧
      HopInv es (ps.foldl (fun t p => relaxStep t k p.1 p.2) t) := by
  induction ps with
  | nil =>
    intro t hU hS hH hk hps
    exact ⟨hU, hS, hH⟩
  | cons p rest ih =>
    intro t hU hS hH hk hps
    have hp := hps p (List.mem_cons_self _ _)
    have hU1 := relaxStep_Uinv hU hk hp.1 hp.2
    have hS1 := relaxStep_SigLe hnnc hU hS hk hp.1 hp.2
    have hH1 := relaxStep_HopInv hnnc hU hS hH hk hp.1 hp.2
    have hvs := relaxStep_vertices t k p.1 p.2
    have := ih (relaxStep t k p.1 p.2) hU1 hS1 hH1
      (by rw [hvs]; exact hk)
      (fun q hq => by rw [hvs]; exact hps q (List.mem_cons_of_mem _ hq))
    rw [List.foldl_cons]
    exact this

theorem HopInv_generate {es : List Edge} (hnnc : NoNegCycle es) :
    HopInv es (GenerateDistanceMatrix (mkFW es)) := by
  suffices h : ∀ ks : List V, ∀ t : FWState, Uinv es t → SigLe es t → HopInv es t →
      (∀ x ∈ ks, x ∈ t.vertices) →
      Uinv es (ks.foldl relaxK t) ∧ SigLe es (ks.foldl relaxK t) ∧
        HopInv es (ks.foldl relaxK t) by
    exact (h (mkFW es).vertices (mkFW es) (Uinv_mkFW es) (SigLe_mkFW es)
      (HopInv_mkFW hnnc) (fun x hx => hx)).2.2
  intro ks
  induction ks with
  | nil =>
    intro t hU hS hH hks
    exact ⟨hU, hS, hH⟩
  | cons k rest ih =>
    intro t hU hS hH hks
    have hk := hks k (List.mem_cons_self _ _)
    have hfold := foldl_pairs_hop hnnc k (pairsOf t.vertices) t hU hS hH hk
      (fun p hp => mem_pairsOf.mp hp)
    have hvs := relaxK_vertices t k
    have := ih (relaxK t k) hfold.1 hfold.2.1 hfold.2.2
      (fun x hx => by rw [hvs]; exact hks x (List.mem_cons_of_mem _ hx))
    rw [List.foldl_cons]
    exact this

theorem final_hopEq {es : List Edge} (hnnc : NoNegCycle es) {i j m : V}
    (hij : i ≠ j) (hi : i ∈ (InitEdges es).vertices) (hj : j ∈ (InitEdges es).vertices)
    (hdne : sigma es i j ≠ D.inf)
    (hm : mlookup (GenerateDistanceMatrix (mkFW es)).nxt (i, j) = some m) :
    ∃ w, edgeWeight es i m = some w ∧ sigma es i j = D.fin w + sigma es m j ∧
      sigma es m j ≠ D.inf := by
  obtain ⟨w, hedge, hle⟩ := HopInv_generate hnnc i j m (sigma es i j) hij
    (final_presence hi hj) hdne hm
  have hmI : m ∈ (InitEdges es).vertices := (edgeWeight_mem_vertices hedge).2
  have hmfin : sigma es m j ≠ D.inf := by
    intro hcon
    rw [hcon] at hle
    rw [show D.fin w + D.inf = D.inf from rfl] at hle
    exact hdne (dinf_le_iff.mp hle)
  obtain ⟨qm, hqm⟩ : ∃ x, sigma es m j = D.fin x := by
    cases hh : sigma es m j with
    | inf => exact absurd hh hmfin
    | fin x => exact ⟨x, rfl⟩
  obtain ⟨p, hp⟩ := final_realizable (by rw [final_presence hmI hj, hqm])
  have hwalk : IsWalk es i j (m :: p) (w + qm) := IsWalk.cons hedge hp
  have hge : sigma es i j ≤ D.fin (w + qm) := final_lower hnnc hwalk hi hj
  have hge2 : sigma es i j ≤ D.fin w + sigma es m j := by
    rw [hqm]
    exact hge
  exact ⟨w, hedge, D.le_antisymm hge2 hle, hmfin⟩

theorem chain_hopSum {es : List Edge} (hnnc : NoNegCycle es) {v : V}
    {suffix : List V} {cur : V}
    (hch : NxtChain (GenerateDistanceMatrix (mkFW es)).nxt v cur suffix) :
    cur ∈ (InitEdges es).vertices → v ∈ (InitEdges es).vertices →
    sigma es cur v ≠ D.inf →
    ∃ q, hopSum es (cur :: suffix) = some q ∧ sigma es cur v = D.fin q := by
  induction hch with
  | done =>
    intro hcur hv hfin
    refine ⟨0, rfl, ?_⟩
    exact distF_eq_of_lookup (final_diag hnnc hv)
  | step hne hlook hchain ih =>
    rename_i cur c suffix
    intro hcur hv hfin
    obtain ⟨w, hedge, heq, hmfin⟩ := final_hopEq hnnc hne hcur hv hfin hlook
    have hcI : c ∈ (InitEdges es).vertices := (edgeWeight_mem_vertices hedge).2
    obtain ⟨q, hq, hsq⟩ := ih hcI hv hmfin
    refine ⟨w + q, ?_, ?_⟩
    · rw [hopSum, hedge, hq]
    · rw [heq, hsq]
      rfl

/-! ## Structure of a successful `GetPath` walk -/

theorem nodup_snoc {α : Type} {l : List α} {a : α} (h : l.Nodup) (hna : a ∉ l) :
    (l ++ [a]).Nodup := by
  rw [List.nodup_append]
  refine ⟨h, List.nodup_singleton a, ?_⟩
  intro x hx hx2
  rw [List.mem_singleton] at hx2
  subst hx2
  exact hna hx

theorem getLast?_snoc {α : Type} (l : List α) (a : α) : (l ++ [a]).getLast? = some a :=
  List.getLast?_concat l

theorem head?_append_left {α : Type} {l : List α} (h : l ≠ []) (l2 : List α) :
    (l ++ l2).head? = l.head? := by
  cases l with
  | nil => exact absurd rfl h
  | cons a r => rfl

theorem getPathAux_ok {nxt : List ((V × V) × V)} {dst : V} :
    ∀ (f : ℕ) (visited : List V) (current : V) {res : List V},
      getPathAux nxt dst f visited current = some (Except.ok res) →
      visited ≠ [] → visited.getLast? = some current → dst ∉ visited → visited.Nodup →
      ∃ suffix, res = visited ++ suffix ∧ NxtChain nxt dst current suffix ∧
        res.Nodup ∧ res.getLast? = some dst ∧ res.head? = visited.head? := by
  intro f
  induction f with
  | zero =>
    intro visited current res h
    cases h
  | succ f ih =>
    intro visited current res h hvne hvlast hdnv hnd
    rw [getPathAux] at h
    by_cases h1 : current = dst
    · rw [if_pos h1] at h
      have hres : res = visited := (Except.ok.inj (Option.some.inj h)).symm
      refine ⟨[], by rw [hres, List.append_nil], by rw [← h1]; exact NxtChain.done,
        hres ▸ hnd, ?_, by rw [hres]⟩
      rw [hres, ← h1]
      exact hvlast
    · rw [if_neg h1] at h
      cases hl : mlookup nxt (current, dst) with
      | none =>
        rw [hl] at h
        dsimp only at h
        simp at h
      | some c =>
        rw [hl] at h
        dsimp only at h
        by_cases h2 : c = dst
        · rw [if_pos h2] at h
          have hres : res = visited ++ [c] := (Except.ok.inj (Option.some.inj h)).symm
          refine ⟨[c], hres, ?_, ?_, ?_, ?_⟩
          · exact NxtChain.step h1 hl (by rw [h2]; exact NxtChain.done)
          · rw [hres]
            exact nodup_snoc hnd (fun hmem => hdnv (h2 ▸ hmem))
          · rw [hres, getLast?_snoc]
            exact congrArg some h2
          · rw [hres]
            exact head?_append_left hvne [c]
        · rw [if_neg h2] at h
          by_cases h3 : strContains (joinDash visited) c = true
          · rw [if_pos h3] at h
            simp at h
          · rw [if_neg h3] at h
            have hcv : c ∉ visited := fun hmem => h3 (strContains_of_mem hmem)
            obtain ⟨suffix, hres, hchain, hnd2, hlast2, hhead2⟩ :=
              ih (visited ++ [c]) c h (by simp) (getLast?_snoc visited c)
                (by
                  intro hmem
                  rcases List.mem_append.mp hmem with hm | hm
                  · exact hdnv hm
                  · exact h2 ((List.mem_singleton.mp hm).symm))
                (nodup_snoc hnd hcv)
            refine ⟨c :: suffix, ?_, NxtChain.step h1 hl hchain, hnd2, hlast2, ?_⟩
            · rw [hres, List.append_assoc]
              rfl
            · rw [hhead2]
              exact head?_append_left hvne [c]

theorem getPath_ok {s : FWState} {u v : V} {res : List V}
    (h : GetPath s u v = Except.ok (PathRes.path res)) :
    res.head? = some u ∧ res.getLast? = some v ∧ res.Nodup ∧
      ∃ suffix d, res = u :: suffix ∧ NxtChain s.nxt v u suffix ∧
        mlookup s.dist (u, v) = some d ∧ d ≠ D.inf := by
  cases hl : mlookup s.dist (u, v) with
  | none =>
    rw [GetPath, hl] at h
    simp at h
  | some d =>
    by_cases hd : d = D.inf
    · rw [GetPath, hl] at h
      dsimp only at h
      rw [if_pos hd] at h
      simp at h
    · obtain ⟨r, hr, heq⟩ := getPath_eq_aux hl hd
      rw [heq] at h
      cases r with
      | error e => simp [Except.map] at h
      | ok l =>
        have hlres : l = res := by
          simp [Except.map] at h
          exact h
        subst hlres
        by_cases huv : u = v
        · have hfuel : pathFuel s.nxt =
              ((s.nxt.map (fun e => e.2)).dedup.length + 1) + 1 := rfl
          rw [hfuel, getPathAux, if_pos huv] at hr
          have hres : l = [u] := (Except.ok.inj (Option.some.inj hr)).symm
          subst hres
          refine ⟨rfl, ?_, List.nodup_singleton u,
            ⟨[], d, rfl, ?_, rfl, hd⟩⟩
          · rw [huv]
            rfl
          · rw [huv]
            exact NxtChain.done
        · obtain ⟨suffix, hres, hchain, hnd2, hlast2, hhead2⟩ :=
            getPathAux_ok (pathFuel s.nxt) [u] u hr (by simp) rfl
              (by
                intro hmem
                exact huv ((List.mem_singleton.mp hmem).symm))
              (List.nodup_singleton u)
          refine ⟨by rw [hhead2]; rfl, hlast2, hnd2, ⟨suffix, d, ?_, hchain, rfl, hd⟩⟩
          rw [hres]
          rfl

/-! ## Exactly when the walk raises the cycle exception -/

theorem walkPrefix_head {nxt : List ((V × V) × V)} {dst cur : V} {p : List V}
    (h : WalkPrefix nxt dst cur p) : p.head? = some cur ∧ p ≠ [] := by
  cases h with
  | single hcur => exact ⟨rfl, by simp⟩
  | cons hcur hlk hcd hwp => exact ⟨rfl, by simp⟩

theorem getLast?_cons_ne {α : Type} (a : α) {l : List α} (h : l ≠ []) :
    (a :: l).getLast? = l.getLast? := by
  cases l with
  | nil => exact absurd rfl h
  | cons b r => exact List.getLast?_cons_cons

theorem walkPrefix_snoc {nxt : List ((V × V) × V)} {dst u : V} {p : List V}
    {lastv c : V} (h : WalkPrefix nxt dst u p) (hlast : p.getLast? = some lastv)
    (hlook : mlookup nxt (lastv, dst) = some c) (hcd : c ≠ dst) :
    WalkPrefix nxt dst u (p ++ [c]) := by
  induction h with
  | single hcur =>
    rename_i cur
    have hlv : lastv = cur := Option.some.inj hlast.symm
    subst hlv
    exact WalkPrefix.cons hcur hlook hcd (WalkPrefix.single hcd)
  | cons hcur hlk hcd2 hwp ih =>
    rename_i cur c2 p2
    have hp2ne : p2 ≠ [] := (walkPrefix_head hwp).2
    rw [getLast?_cons_ne cur hp2ne] at hlast
    exact WalkPrefix.cons hcur hlk hcd2 (ih hlast)

theorem getPathAux_cycle {nxt : List ((V × V) × V)} {dst u : V} :
    ∀ (f : ℕ) (visited : List V) (current : V),
      getPathAux nxt dst f visited current = some (Except.error PathErr.cycle) →
      WalkPrefix nxt dst u visited → visited.getLast? = some current →
      ∃ p lastv c, WalkPrefix nxt dst u p ∧ p.getLast? = some lastv ∧
        mlookup nxt (lastv, dst) = some c ∧ c ≠ dst ∧
        strContains (joinDash p) c = true := by
  intro f
  induction f with
  | zero =>
    intro visited current h
    cases h
  | succ f ih =>
    intro visited current h hwp hvlast
    rw [getPathAux] at h
    by_cases h1 : current = dst
    · rw [if_pos h1] at h
      simp at h
    · rw [if_neg h1] at h
      cases hl : mlookup nxt (current, dst) with
      | none =>
        rw [hl] at h
        simp at h
      | some c =>
        rw [hl] at h
        dsimp only at h
        by_cases h2 : c = dst
        · rw [if_pos h2] at h
          simp at h
        · rw [if_neg h2] at h
          by_cases h3 : strContains (joinDash visited) c = true
          · exact ⟨visited, current, c, hwp, hvlast, hl, h2, h3⟩
          · rw [if_neg h3] at h
            exact ih (visited ++ [c]) c h (walkPrefix_snoc hwp hvlast hl h2)
              (getLast?_snoc visited c)

theorem cycle_of_trig {nxt : List ((V × V) × V)} {dst : V} {p : List V} {cur : V}
    (hwp : WalkPrefix nxt dst cur p) :
    ∀ (visited : List V), visited.getLast? = some cur →
      ∀ lastv c, p.getLast? = some lastv → mlookup nxt (lastv, dst) = some c →
        c ≠ dst → strContains (joinDash (visited ++ p.tail)) c = true →
        ∃ f, getPathAux nxt dst f visited cur = some (Except.error PathErr.cycle) := by
  induction hwp with
  | single hcur =>
    rename_i cur
    intro visited hvlast lastv c hplast hlook hcd hsub
    have hlv : lastv = cur := Option.some.inj hplast.symm
    subst hlv
    simp only [List.tail_cons, List.append_nil] at hsub
    refine ⟨1, ?_⟩
    rw [getPathAux, if_neg hcur, hlook]
    dsimp only
    rw [if_neg hcd, if_pos hsub]
  | cons hcur hlk hcd2 hwp2 ih =>
    rename_i cur c2 p2
    intro visited hvlast lastv c hplast hlook hcd hsub
    have hp2 := walkPrefix_head hwp2
    have hp2eq : c2 :: p2.tail = p2 := List.cons_head?_tail hp2.1
    by_cases hsc : strContains (joinDash visited) c2 = true
    · refine ⟨1, ?_⟩
      rw [getPathAux, if_neg hcur, hlk]
      dsimp only
      rw [if_neg hcd2, if_pos hsc]
    · have hplast2 : p2.getLast? = some lastv := by
        rw [getLast?_cons_ne cur hp2.2] at hplast
        exact hplast
      have hsub2 : strContains (joinDash ((visited ++ [c2]) ++ p2.tail)) c = true := by
        rw [List.append_assoc]
        rw [show [c2] ++ p2.tail = c2 :: p2.tail from rfl, hp2eq]
        exact hsub
      obtain ⟨f, hf⟩ := ih (visited ++ [c2]) (getLast?_snoc visited c2) lastv c
        hplast2 hlook hcd hsub2
      refine ⟨f + 1, ?_⟩
      rw [getPathAux, if_neg hcur, hlk]
      dsimp only
      rw [if_neg hcd2, if_neg hsc]
      exact hf

/-! ## What the report writer produces -/

theorem printGo_eq (nxt : List ((V × V) × V)) (vs : List V) :
    ∀ (ps : List (V × V)) (dm : List ((V × V) × D)),
      (∀ p ∈ ps, (mlookup dm p).isSome = true) →
      (printGo nxt vs ps dm).dist = dm ∧
      ((printGo nxt vs ps dm).err = none →
        (printGo nxt vs ps dm).lines = reportLines ⟨dm, nxt, vs⟩ ps) ∧
      (∀ e, (printGo nxt vs ps dm).err = some e →
        ∃ pre l r post, ps = pre ++ (l, r) :: post ∧
          (printGo nxt vs ps dm).lines = reportLines ⟨dm, nxt, vs⟩ pre ∧
          (∀ q ∈ pre, q.1 ≠ q.2 → distF ⟨dm, nxt, vs⟩ q.1 q.2 ≠ D.inf →
            ∀ e', GetPathStr ⟨dm, nxt, vs⟩ q.1 q.2 ≠ Except.error e') ∧
          l ≠ r ∧ distF ⟨dm, nxt, vs⟩ l r ≠ D.inf ∧
          GetPathStr ⟨dm, nxt, vs⟩ l r = Except.error e) := by
  intro ps
  induction ps with
  | nil =>
    intro dm hpres
    exact ⟨rfl, fun _ => rfl, fun e he => by cases he⟩
  | cons p rest ih =>
    intro dm hpres
    obtain ⟨v0, hv0⟩ := Option.isSome_iff_exists.mp (hpres p (List.mem_cons_self _ _))
    have hrd : mindex dm p (D.fin 0) = (distF ⟨dm, nxt, vs⟩ p.1 p.2, dm) := by
      rw [mindex_present hv0]
      rw [show distF ⟨dm, nxt, vs⟩ p.1 p.2 = v0 from distF_eq_of_lookup hv0]
    obtain ⟨ih1, ih2, ih3⟩ := ih dm (fun q hq => hpres q (List.mem_cons_of_mem _ hq))
    rw [printGo, hrd]
    dsimp only
    by_cases hdiag : p.1 = p.2
    · rw [if_pos hdiag]
      refine ⟨ih1, ?_, ?_⟩
      · intro he
        rw [reportLines, if_pos hdiag]
        exact ih2 he
      · intro e he
        obtain ⟨pre, l, r, post, hsplit, hlines, hnofail, hlr, hdfin, herr⟩ := ih3 e he
        refine ⟨p :: pre, l, r, post, by rw [hsplit]; rfl, ?_, ?_, hlr, hdfin, herr⟩
        · rw [reportLines, if_pos hdiag]
          exact hlines
        · intro q hq
          rcases List.mem_cons.mp hq with rfl | hqmem
          · exact fun hne => absurd hdiag hne
          · exact hnofail q hqmem
    · rw [if_neg hdiag]
      by_cases hinf : distF ⟨dm, nxt, vs⟩ p.1 p.2 = D.inf
      · rw [if_pos hinf]
        dsimp only
        refine ⟨ih1, ?_, ?_⟩
        · intro he
          rw [reportLines, if_neg hdiag, if_pos hinf]
          rw [ih2 he]
        · intro e he
          obtain ⟨pre, l, r, post, hsplit, hlines, hnofail, hlr, hdfin, herr⟩ := ih3 e he
          refine ⟨p :: pre, l, r, post, by rw [hsplit]; rfl, ?_, ?_, hlr, hdfin, herr⟩
          · rw [reportLines, if_neg hdiag, if_pos hinf, hlines]
          · intro q hq
            rcases List.mem_cons.mp hq with rfl | hqmem
            · exact fun _ hfin => absurd hinf hfin
            · exact hnofail q hqmem
      · rw [if_neg hinf]
        cases hgp : GetPathStr ⟨dm, nxt, vs⟩ p.1 p.2 with
        | error e0 =>
          dsimp only
          refine ⟨rfl, ?_, ?_⟩
          · intro he
            cases he
          · intro e he
            have he0 : e0 = e := Option.some.inj he
            refine ⟨[], p.1, p.2, rest, ?_, rfl, ?_, hdiag, hinf, he0 ▸ hgp⟩
            · simp
            · intro q hq
              simp at hq
        | ok str =>
          dsimp only
          refine ⟨ih1, ?_, ?_⟩
          · intro he
            rw [reportLines, if_neg hdiag, if_neg hinf, hgp, ih2 he]
          · intro e he
            obtain ⟨pre, l, r, post, hsplit, hlines, hnofail, hlr, hdfin, herr⟩ := ih3 e he
            refine ⟨p :: pre, l, r, post, by rw [hsplit]; rfl, ?_, ?_, hlr, hdfin, herr⟩
            · rw [reportLines, if_neg hdiag, if_neg hinf, hgp, hlines]
            · intro q hq
              rcases List.mem_cons.mp hq with rfl | hqmem
              · intro hne hfin e' herr'
                rw [hgp] at herr'
                cases herr'
              · exact hnofail q hqmem

theorem printDistances_facts {s : FWState} (hD : DomFull s) :
    (PrintDistances s).dist = s.dist ∧
    ((PrintDistances s).err = none →
      (PrintDistances s).lines = reportLines s (pairsOf s.vertices)) ∧
    (∀ e, (PrintDistances s).err = some e →
      ∃ pre l r post, pairsOf s.vertices = pre ++ (l, r) :: post ∧
        (PrintDistances s).lines = reportLines s pre ∧
        (∀ q ∈ pre, q.1 ≠ q.2 → distF s q.1 q.2 ≠ D.inf →
          ∀ e', GetPathStr s q.1 q.2 ≠ Except.error e') ∧
        l ≠ r ∧ distF s l r ≠ D.inf ∧ GetPathStr s l r = Except.error e) := by
  have h := printGo_eq s.nxt s.vertices (pairsOf s.vertices) s.dist
    (fun p hp => by
      obtain ⟨h1, h2⟩ := mem_pairsOf.mp hp
      exact hD p.1 h1 p.2 h2)
  exact h

theorem edgeWeight_val_exists {es : List Edge} {a b : V} {w : ℚ}
    (h : edgeWeight es a b = some w) : ∃ e ∈ es, e.2.2 = w := by
  induction es with
  | nil => cases h
  | cons e es ih =>
    rw [edgeWeight] at h
    cases hw : edgeWeight es a b with
    | some w' =>
      rw [hw] at h
      obtain ⟨e', he', hp⟩ := ih (by rw [hw, Option.some.inj h])
      exact ⟨e', List.mem_cons_of_mem _ he', hp⟩
    | none =>
      rw [hw] at h
      by_cases hc : e.1 = a ∧ e.2.1 = b
      · rw [if_pos hc] at h
        exact ⟨e, List.mem_cons_self _ _, Option.some.inj h⟩
      · rw [if_neg hc] at h
        cases h

theorem walk_weight_nonneg {es : List Edge} (hpos : ∀ e ∈ es, 0 ≤ e.2.2)
    {i j : V} {p : List V} {w : ℚ} (hw : IsWalk es i j p w) : 0 ≤ w := by
  induction hw with
  | nil u => exact le_refl 0
  | cons he hw' ih =>
    obtain ⟨e, he2, hval⟩ := edgeWeight_val_exists he
    have := hpos e he2
    rw [hval] at this
    linarith

theorem nonneg_noNegCycle {es : List Edge} (hpos : ∀ e ∈ es, 0 ≤ e.2.2) :
    NoNegCycle es := fun _ _ _ hw _ => walk_weight_nonneg hpos hw

/-! ## Concrete evaluations -/

theorem strAB : (("A" : String) = "B") = False := by decide

theorem strBA : (("B" : String) = "A") = False := by decide

theorem strAC : (("A" : String) = "C") = False := by decide

theorem strCA : (("C" : String) = "A") = False := by decide

theorem strBC : (("B" : String) = "C") = False := by decide

theorem strCB : (("C" : String) = "B") = False := by decide

set_option maxHeartbeats 4000000 in
/-- The full pass on the spec's positive example, evaluated. -/
theorem genEvalG : GenerateDistanceMatrix (mkFW exG) =
    { dist := [(("A","C"), D.fin 3), (("C","C"), D.fin 0), (("C","B"), D.inf),
        (("C","A"), D.inf), (("B","B"), D.fin 0), (("B","A"), D.inf),
        (("A","A"), D.fin 0), (("A","C"), D.fin 10), (("B","C"), D.fin 2),
        (("A","B"), D.fin 1)],
      nxt := [(("A","C"), "B"), (("A","C"), "C"), (("B","C"), "C"), (("A","B"), "B")],
      vertices := ["A","B","C"] } := by
  norm_num [GenerateDistanceMatrix, relaxK, relaxStep, mkFW, InitDistanceMatrix,
    InitEdges, addEdge, initPair, pairsOf, mindex, mlookup, massign, exG,
    strAB, strBA, strAC, strCA, strBC, strCB]

set_option maxHeartbeats 4000000 in
/-- The full pass on the negative-cycle example, evaluated. -/
theorem genEvalNeg : GenerateDistanceMatrix (mkFW exNeg) =
    { dist := [(("B","B"), D.fin (-4)), (("B","A"), D.fin (-5)),
        (("A","B"), D.fin (-1)), (("A","A"), D.fin (-2)), (("B","B"), D.fin (-2)),
        (("B","B"), D.fin 0), (("A","A"), D.fin 0), (("B","A"), D.fin (-3)),
        (("A","B"), D.fin 1)],
      nxt := [(("B","B"), "A"), (("B","A"), "A"), (("A","B"), "B"),
        (("A","A"), "B"), (("B","B"), "A"), (("B","A"), "A"), (("A","B"), "B")],
      vertices := ["A","B"] } := by
  norm_num [GenerateDistanceMatrix, relaxK, relaxStep, mkFW, InitDistanceMatrix,
    InitEdges, addEdge, initPair, pairsOf, mindex, mlookup, massign, exNeg,
    strAB, strBA]

set_option maxHeartbeats 4000000 in
/-- The full pass on the three-vertex negative-cycle example, evaluated. -/
theorem genEvalNeg3 : GenerateDistanceMatrix (mkFW exNeg3) =
    { dist := [(("B","C"), D.fin (-6)), (("B","B"), D.fin (-4)),
        (("B","A"), D.fin (-5)), (("A","C"), D.fin (-3)), (("A","B"), D.fin (-1)),
        (("A","A"), D.fin (-2)), (("B","C"), D.fin (-2)), (("B","B"), D.fin (-2)),
        (("C","C"), D.fin 0), (("C","B"), D.inf), (("C","A"), D.inf),
        (("B","C"), D.inf), (("B","B"), D.fin 0), (("A","A"), D.fin 0),
        (("A","C"), D.fin 1), (("B","A"), D.fin (-3)), (("A","B"), D.fin 1)],
      nxt := [(("B","C"), "A"), (("B","B"), "A"), (("B","A"), "A"),
        (("A","C"), "B"), (("A","B"), "B"), (("A","A"), "B"), (("B","C"), "A"),
        (("B","B"), "A"), (("A","C"), "C"), (("B","A"), "A"), (("A","B"), "B")],
      vertices := ["A","B","C"] } := by
  norm_num [GenerateDistanceMatrix, relaxK, relaxStep, mkFW, InitDistanceMatrix,
    InitEdges, addEdge, initPair, pairsOf, mindex, mlookup, massign, exNeg3,
    strAB, strBA, strAC, strCA, strBC, strCB]

set_option maxHeartbeats 4000000 in
/-- Running the pass twice on the negative-cycle example drives the diagonal
entry further down. -/
theorem dblNegAA : mlookup (GenerateDistanceMatrix (GenerateDistanceMatrix
    (mkFW exNeg))).dist ("A", "A") = some (D.fin (-14)) := by
  norm_num [GenerateDistanceMatrix, relaxK, relaxStep, mkFW, InitDistanceMatrix,
    InitEdges, addEdge, initPair, pairsOf, mindex, mlookup, massign, exNeg,
    strAB, strBA]

theorem exG_nnc : NoNegCycle exG := nonneg_noNegCycle (by decide)

theorem exG_AC_lookup :
    mlookup (GenerateDistanceMatrix (mkFW exG)).dist ("A", "C") =
      some (D.fin 3) := by
  rw [genEvalG]; decide

theorem exG_getPath : GetPath (GenerateDistanceMatrix (mkFW exG)) "A" "C" =
    Except.ok (PathRes.path ["A", "B", "C"]) := by
  rw [genEvalG]; decide

theorem negAA : mlookup (GenerateDistanceMatrix (mkFW exNeg)).dist ("A", "A") =
    some (D.fin (-2)) := by
  rw [genEvalNeg]; decide

theorem negAB : mlookup (GenerateDistanceMatrix (mkFW exNeg)).dist ("A", "B") =
    some (D.fin (-1)) := by
  rw [genEvalNeg]; decide

theorem negPath : GetPath (GenerateDistanceMatrix (mkFW exNeg)) "A" "B" =
    Except.ok (PathRes.path ["A", "B"]) := by
  rw [genEvalNeg]; decide

theorem negHopSum : hopSum exNeg ["A", "B"] = some 1 := by
  norm_num [hopSum, edgeWeight, exNeg, strAB, strBA]

theorem pd3_err : (PrintDistances (GenerateDistanceMatrix (mkFW exNeg3))).err =
    some PathErr.cycle := by
  rw [genEvalNeg3]; decide

theorem pd3_lines : (PrintDistances (GenerateDistanceMatrix (mkFW exNeg3))).lines =
    [RLine.fin "A" "B" (D.fin (-1)) "A-B"] := by
  rw [genEvalNeg3]; decide

theorem pd3_BA_dist :
    mlookup (GenerateDistanceMatrix (mkFW exNeg3)).dist ("B", "A") =
      some (D.fin (-5)) := by
  rw [genEvalNeg3]; decide

theorem pd3_BA_path : GetPathStr (GenerateDistanceMatrix (mkFW exNeg3)) "B" "A" =
    Except.ok "B-A" := by
  rw [genEvalNeg3]; decide

/-! ## Shared helper facts for the claims -/

theorem mkFW_diag {es : List Edge} {v : V} (hv : v ∈ (InitEdges es).vertices) :
    mlookup (mkFW es).dist (v, v) = some (D.fin 0) := by
  rw [mkFW_dist es hv hv, if_pos rfl]

theorem initEdges_NextCov (es : List Edge) : NextCov (InitEdges es) := by
  intro i j d hd hne hfin
  rw [initEdges_nxt]
  rw [initEdges_dist] at hd
  cases hw : edgeWeight es i j with
  | none => rw [hw] at hd; cases hd
  | some w => simp [hw]

/-! ## The claims -/

/-- Claim C1: for every input graph without a negative cycle, after
`GenerateDistanceMatrix` completes, the stored distance for a vertex pair
`(u, v)` is a lower bound on the weight of every directed walk from `u` to
`v`, is attained by such a walk whenever it is finite, and equals the
infinite sentinel exactly when no walk from `u` to `v` exists. -/
theorem c1_shortest_paths {es : List Edge} {u v : V} {d : D}
    (hnnc : NoNegCycle es)
    (hd : mlookup (GenerateDistanceMatrix (mkFW es)).dist (u, v) = some d) :
    (∀ p w, IsWalk es u v p w → d ≤ D.fin w) ∧
    (d ≠ D.inf → ∃ p w, IsWalk es u v p w ∧ d = D.fin w) ∧
    (d = D.inf ↔ ∀ p w, ¬ IsWalk es u v p w) := by
  have hU := Uinv_generate es
  have hmem := hU.2.2.1 u v (by rw [hd]; rfl)
  have hu : u ∈ (InitEdges es).vertices := by
    rw [← generate_verts_init]; exact hmem.1
  have hv : v ∈ (InitEdges es).vertices := by
    rw [← generate_verts_init]; exact hmem.2
  have hsd : distF (GenerateDistanceMatrix (mkFW es)) u v = d :=
    distF_eq_of_lookup hd
  have hlow : ∀ p w, IsWalk es u v p w → d ≤ D.fin w := by
    intro p w hw
    have h1 := final_lower hnnc hw hu hv
    have h2 : distF (GenerateDistanceMatrix (mkFW es)) u v ≤ D.fin w := h1
    rw [hsd] at h2
    exact h2
  have hatt : d ≠ D.inf → ∃ p w, IsWalk es u v p w ∧ d = D.fin w := by
    intro hne
    cases hdc : d with
    | inf => exact absurd hdc hne
    | fin q =>
      obtain ⟨p, hp⟩ := final_realizable (by rw [hd, hdc])
      exact ⟨p, q, hp, rfl⟩
  refine ⟨hlow, hatt, ?_, ?_⟩
  · intro hinf p w hw
    have := hlow p w hw
    rw [hinf] at this
    exact D.not_inf_le_fin w this
  · intro hno
    by_contra hne
    obtain ⟨p, w, hw, -⟩ := hatt hne
    exact hno p w hw

/-- Claim C1, witnessed on the spec's example graph at the pair (A, C). -/
theorem c1_shortest_paths_witness :
    NoNegCycle exG ∧
    mlookup (GenerateDistanceMatrix (mkFW exG)).dist ("A", "C") =
      some (D.fin 3) ∧
    ((∀ p w, IsWalk exG "A" "C" p w → D.fin 3 ≤ D.fin w) ∧
     (D.fin 3 ≠ D.inf → ∃ p w, IsWalk exG "A" "C" p w ∧ D.fin 3 = D.fin w) ∧
     (D.fin 3 = D.inf ↔ ∀ p w, ¬ IsWalk exG "A" "C" p w)) :=
  ⟨exG_nnc, exG_AC_lookup, c1_shortest_paths exG_nnc exG_AC_lookup⟩

/-- Claim C2 (amended): for a pair with a stored finite distance, `GetPath`
raises the cycle error iff some prefix of the next-hop walk produces a
candidate vertex, distinct from the destination, whose name occurs as a
substring of the dash-joined path string built so far — a substring test,
not the claimed revisited-vertex test. -/
theorem c2_cycle_guard {s : FWState} {u v : V} {d : D}
    (hd : mlookup s.dist (u, v) = some d) (hne : d ≠ D.inf) :
    (GetPath s u v = Except.error PathErr.cycle ↔ CycleTrig s u v) := by
  obtain ⟨r, hr, heq⟩ := getPath_eq_aux hd hne
  constructor
  · intro h
    rw [heq] at h
    cases r with
    | ok l => simp [Except.map] at h
    | error e =>
      have he : e = PathErr.cycle := by simpa [Except.map] using h
      subst he
      by_cases huv : u = v
      · exfalso
        have h2 : pathFuel s.nxt =
            ((s.nxt.map fun e => e.2).dedup.length + 1) + 1 := rfl
        rw [h2] at hr
        rw [getPathAux, if_pos huv] at hr
        simp at hr
      · exact getPathAux_cycle (pathFuel s.nxt) [u] u hr
          (WalkPrefix.single huv) rfl
  · intro htr
    obtain ⟨p, lastv, c, hwp, hplast, hlook, hcd, hsub⟩ := htr
    have hh := walkPrefix_head hwp
    have hp1 : u :: p.tail = p := List.cons_head?_tail hh.1
    obtain ⟨f, hf⟩ := cycle_of_trig hwp [u] rfl lastv c hplast hlook hcd
      (by rw [List.singleton_append, hp1]; exact hsub)
    have hN1 : getPathAux s.nxt v (max f (pathFuel s.nxt)) [u] u =
        some (Except.error PathErr.cycle) :=
      getPathAux_mono f [u] u hf (le_max_left _ _)
    have hN2 : getPathAux s.nxt v (max f (pathFuel s.nxt)) [u] u = some r :=
      getPathAux_mono (pathFuel s.nxt) [u] u hr (le_max_right _ _)
    have hre : r = Except.error PathErr.cycle :=
      Option.some.inj (hN2.symm.trans hN1)
    rw [heq, hre]
    rfl

/-- Claim C2, witnessed on the state whose vertex names make the substring
test fire spuriously. -/
theorem c2_cycle_guard_witness :
    mlookup sFalsePos.dist ("AB", "C") = some (D.fin 5) ∧
    (D.fin 5 : D) ≠ D.inf ∧
    (GetPath sFalsePos "AB" "C" = Except.error PathErr.cycle ↔
      CycleTrig sFalsePos "AB" "C") :=
  ⟨by decide, by decide,
   @c2_cycle_guard sFalsePos "AB" "C" (D.fin 5) (by decide) (by decide)⟩

/-- Claim C2, counterexample to the stated revisited-vertex guard: the
next-hop chain AB → A → C repeats no vertex, yet `GetPath` raises the cycle
error because the vertex name "A" is a substring of the path string "AB". -/
theorem c2_counterexample :
    GetPath sFalsePos "AB" "C" = Except.error PathErr.cycle ∧
    NxtChain sFalsePos.nxt "C" "AB" ["A", "C"] ∧
    ("AB" :: ["A", "C"] : List V).Nodup :=
  ⟨by decide,
   NxtChain.step (by decide) (by decide)
     (NxtChain.step (by decide) (by decide) NxtChain.done),
   by decide⟩

/-- Claim C3 (amended): a cycle error during report generation leaves the
distance table unchanged, but it aborts the loop: the report contains
exactly the lines of the pairs that precede the first failing pair, and
nothing for the pairs after it. -/
theorem c3_report_abort (es : List Edge) :
    (PrintDistances (GenerateDistanceMatrix (mkFW es))).dist =
      (GenerateDistanceMatrix (mkFW es)).dist ∧
    ((PrintDistances (GenerateDistanceMatrix (mkFW es))).err = none →
      (PrintDistances (GenerateDistanceMatrix (mkFW es))).lines =
        reportLines (GenerateDistanceMatrix (mkFW es))
          (pairsOf (GenerateDistanceMatrix (mkFW es)).vertices)) ∧
    (∀ e, (PrintDistances (GenerateDistanceMatrix (mkFW es))).err = some e →
      ∃ pre l r post,
        pairsOf (GenerateDistanceMatrix (mkFW es)).vertices =
          pre ++ (l, r) :: post ∧
        (PrintDistances (GenerateDistanceMatrix (mkFW es))).lines =
          reportLines (GenerateDistanceMatrix (mkFW es)) pre ∧
        (∀ q ∈ pre, q.1 ≠ q.2 →
          distF (GenerateDistanceMatrix (mkFW es)) q.1 q.2 ≠ D.inf →
          ∀ e', GetPathStr (GenerateDistanceMatrix (mkFW es)) q.1 q.2 ≠
            Except.error e') ∧
        l ≠ r ∧ distF (GenerateDistanceMatrix (mkFW es)) l r ≠ D.inf ∧
        GetPathStr (GenerateDistanceMatrix (mkFW es)) l r = Except.error e) :=
  printDistances_facts ((Uinv_generate es).2.1)

/-- Claim C3, witnessed on the three-vertex negative-cycle example, where
the failing pair (A, C) aborts the rest of the report. -/
theorem c3_report_abort_witness :
    (PrintDistances (GenerateDistanceMatrix (mkFW exNeg3))).err =
      some PathErr.cycle ∧
    (∃ pre l r post,
      pairsOf (GenerateDistanceMatrix (mkFW exNeg3)).vertices =
        pre ++ (l, r) :: post ∧
      (PrintDistances (GenerateDistanceMatrix (mkFW exNeg3))).lines =
        reportLines (GenerateDistanceMatrix (mkFW exNeg3)) pre ∧
      (∀ q ∈ pre, q.1 ≠ q.2 →
        distF (GenerateDistanceMatrix (mkFW exNeg3)) q.1 q.2 ≠ D.inf →
        ∀ e', GetPathStr (GenerateDistanceMatrix (mkFW exNeg3)) q.1 q.2 ≠
          Except.error e') ∧
      l ≠ r ∧ distF (GenerateDistanceMatrix (mkFW exNeg3)) l r ≠ D.inf ∧
      GetPathStr (GenerateDistanceMatrix (mkFW exNeg3)) l r =
        Except.error PathErr.cycle) :=
  ⟨pd3_err, (c3_report_abort exNeg3).2.2 PathErr.cycle pd3_err⟩

/-- Claim C3, counterexample to "the distance report is still produced for
every other ordered vertex pair": on the three-vertex negative-cycle
example the failure at (A, C) leaves only the (A, B) line in the report,
although the later pair (B, A) has a finite distance and a successfully
reconstructed path. -/
theorem c3_counterexample :
    (PrintDistances (GenerateDistanceMatrix (mkFW exNeg3))).err =
      some PathErr.cycle ∧
    (PrintDistances (GenerateDistanceMatrix (mkFW exNeg3))).lines =
      [RLine.fin "A" "B" (D.fin (-1)) "A-B"] ∧
    mlookup (GenerateDistanceMatrix (mkFW exNeg3)).dist ("B", "A") =
      some (D.fin (-5)) ∧
    GetPathStr (GenerateDistanceMatrix (mkFW exNeg3)) "B" "A" =
      Except.ok "B-A" ∧
    ∀ l ∈ (PrintDistances (GenerateDistanceMatrix (mkFW exNeg3))).lines,
      l ≠ RLine.fin "B" "A" (D.fin (-5)) "B-A" :=
  ⟨pd3_err, pd3_lines, pd3_BA_dist, pd3_BA_path, by rw [pd3_lines]; decide⟩

/-- Claim C4 (amended): a successful `GetPath` after the pass returns a
sequence that starts at `u`, ends at `v` and repeats no vertex; the sum of
the stored edge weights along its hops equals the stored distance under the
additional hypothesis that the graph has no negative cycle. -/
theorem c4_path_valid {es : List Edge} {u v : V} {res : List V}
    (h : GetPath (GenerateDistanceMatrix (mkFW es)) u v =
      Except.ok (PathRes.path res)) :
    (res.head? = some u ∧ res.getLast? = some v ∧ res.Nodup) ∧
    (NoNegCycle es → ∃ q, hopSum es res = some q ∧
      mlookup (GenerateDistanceMatrix (mkFW es)).dist (u, v) =
        some (D.fin q)) := by
  obtain ⟨hh, hl, hnd, suffix, d, hres, hchain, hlook, hdne⟩ := getPath_ok h
  refine ⟨⟨hh, hl, hnd⟩, ?_⟩
  intro hnnc
  have hU := Uinv_generate es
  have hmem := hU.2.2.1 u v (by rw [hlook]; rfl)
  have hu : u ∈ (InitEdges es).vertices := by
    rw [← generate_verts_init]; exact hmem.1
  have hv : v ∈ (InitEdges es).vertices := by
    rw [← generate_verts_init]; exact hmem.2
  have hsd : distF (GenerateDistanceMatrix (mkFW es)) u v = d :=
    distF_eq_of_lookup hlook
  have hfin : sigma es u v ≠ D.inf := by
    show distF (GenerateDistanceMatrix (mkFW es)) u v ≠ D.inf
    rw [hsd]; exact hdne
  obtain ⟨q, hq, hsq⟩ := chain_hopSum hnnc hchain hu hv hfin
  refine ⟨q, by rw [hres]; exact hq, ?_⟩
  rw [hlook]
  have h2 : distF (GenerateDistanceMatrix (mkFW es)) u v = D.fin q := hsq
  rw [hsd] at h2
  rw [h2]

/-- Claim C4, witnessed on the spec's example graph: the reconstructed path
A-B-C with hop sum 1 + 2 = 3 equals the stored distance. -/
theorem c4_path_valid_witness :
    GetPath (GenerateDistanceMatrix (mkFW exG)) "A" "C" =
      Except.ok (PathRes.path ["A", "B", "C"]) ∧ NoNegCycle exG ∧
    ((["A", "B", "C"].head? = some "A" ∧
      ["A", "B", "C"].getLast? = some "C" ∧
      (["A", "B", "C"] : List V).Nodup) ∧
     (∃ q, hopSum exG ["A", "B", "C"] = some q ∧
       mlookup (GenerateDistanceMatrix (mkFW exG)).dist ("A", "C") =
         some (D.fin q))) :=
  ⟨exG_getPath, exG_nnc,
   ⟨(c4_path_valid exG_getPath).1, (c4_path_valid exG_getPath).2 exG_nnc⟩⟩

/-- Claim C4, counterexample to the unconditional sum property: on the
negative-cycle example `GetPath` succeeds for (A, B) with path A-B of hop
sum 1, but the stored distance is -1. -/
theorem c4_counterexample :
    GetPath (GenerateDistanceMatrix (mkFW exNeg)) "A" "B" =
      Except.ok (PathRes.path ["A", "B"]) ∧
    hopSum exNeg ["A", "B"] = some 1 ∧
    mlookup (GenerateDistanceMatrix (mkFW exNeg)).dist ("A", "B") =
      some (D.fin (-1)) ∧ (1 : ℚ) ≠ -1 :=
  ⟨negPath, negHopSum, negAB, by norm_num⟩

/-- Claim C5 (amended): when the graph has no negative cycle, running
`GenerateDistanceMatrix` a second time on the tables produced by a first
run changes nothing; with a negative cycle the entries keep decreasing. -/
theorem c5_idempotent {es : List Edge} (hnnc : NoNegCycle es) :
    GenerateDistanceMatrix (GenerateDistanceMatrix (mkFW es)) =
      GenerateDistanceMatrix (mkFW es) :=
  generate_idem hnnc

/-- Claim C5, witnessed on the spec's example graph. -/
theorem c5_idempotent_witness :
    NoNegCycle exG ∧
    GenerateDistanceMatrix (GenerateDistanceMatrix (mkFW exG)) =
      GenerateDistanceMatrix (mkFW exG) :=
  ⟨exG_nnc, c5_idempotent exG_nnc⟩

/-- Claim C5, counterexample to unconditional idempotence: on the
negative-cycle example a second run drives the (A, A) entry from -2 down
to -14. -/
theorem c5_counterexample :
    mlookup (GenerateDistanceMatrix (GenerateDistanceMatrix
      (mkFW exNeg))).dist ("A", "A") = some (D.fin (-14)) ∧
    mlookup (GenerateDistanceMatrix (mkFW exNeg)).dist ("A", "A") =
      some (D.fin (-2)) ∧
    GenerateDistanceMatrix (GenerateDistanceMatrix (mkFW exNeg)) ≠
      GenerateDistanceMatrix (mkFW exNeg) := by
  refine ⟨dblNegAA, negAA, fun h => ?_⟩
  have h1 := dblNegAA
  rw [h, negAA] at h1
  exact absurd h1 (by decide)

/-- Claim C6 (amended): initialization does silently overwrite a negative
self-loop — `InitDistanceMatrix` unconditionally resets every diagonal
entry of a registered vertex to 0, and no error condition is raised
anywhere in the construction. -/
theorem c6_selfloop_overwrite {es : List Edge} {v : V}
    (hv : v ∈ (InitEdges es).vertices) :
    mlookup (mkFW es).dist (v, v) = some (D.fin 0) :=
  mkFW_diag hv

/-- Claim C6, witnessed on the single negative self-loop graph. -/
theorem c6_selfloop_overwrite_witness :
    "A" ∈ (InitEdges exLoop).vertices ∧
    mlookup (mkFW exLoop).dist ("A", "A") = some (D.fin 0) :=
  ⟨by decide, c6_selfloop_overwrite (by decide)⟩

/-- Claim C6, counterexample to "not silently overwritten / flagged as an
error": the explicit self-loop (A, A, -5) is stored by edge loading, then
replaced by 0 during initialization, with no error of any kind. -/
theorem c6_counterexample :
    edgeWeight exLoop "A" "A" = some (-5) ∧
    mlookup (InitEdges exLoop).dist ("A", "A") = some (D.fin (-5)) ∧
    mlookup (mkFW exLoop).dist ("A", "A") = some (D.fin 0) ∧
    (D.fin 0 : D) ≠ D.fin (-5) :=
  ⟨by decide, by decide, by decide, by decide⟩

/-- Claim C7 (amended): for every registered vertex the diagonal entry is 0
after initialization unconditionally, and still 0 after the pass provided
the graph has no negative cycle; with one, the pass relaxes it below 0. -/
theorem c7_self_distance {es : List Edge} (hnnc : NoNegCycle es) {v : V}
    (hv : v ∈ (InitEdges es).vertices) :
    mlookup (mkFW es).dist (v, v) = some (D.fin 0) ∧
    mlookup (GenerateDistanceMatrix (mkFW es)).dist (v, v) =
      some (D.fin 0) :=
  ⟨mkFW_diag hv, final_diag hnnc hv⟩

/-- Claim C7, witnessed on the spec's example graph at vertex A. -/
theorem c7_self_distance_witness :
    NoNegCycle exG ∧ "A" ∈ (InitEdges exG).vertices ∧
    (mlookup (mkFW exG).dist ("A", "A") = some (D.fin 0) ∧
     mlookup (GenerateDistanceMatrix (mkFW exG)).dist ("A", "A") =
       some (D.fin 0)) :=
  ⟨exG_nnc, by decide, c7_self_distance exG_nnc (by decide)⟩

/-- Claim C7, counterexample to the unconditional invariant: on the
negative-cycle example the pass relaxes the (A, A) entry away from 0,
down to -2. -/
theorem c7_counterexample :
    "A" ∈ (InitEdges exNeg).vertices ∧
    mlookup (GenerateDistanceMatrix (mkFW exNeg)).dist ("A", "A") =
      some (D.fin (-2)) ∧
    some (D.fin (-2)) ≠ some (D.fin 0) :=
  ⟨by decide, negAA, by decide⟩

/-- Claim C8: the relaxation pass computes exactly the same state as a
variant whose lookups are pure reads (so the default-inserting lookups
never create or change an entry), and the report writer returns the
distance table it was given, unchanged. -/
theorem c8_no_lookup_mutation (es : List Edge) :
    GenerateDistanceMatrix (mkFW es) = GenerateDistanceMatrixR (mkFW es) ∧
    (PrintDistances (GenerateDistanceMatrix (mkFW es))).dist =
      (GenerateDistanceMatrix (mkFW es)).dist :=
  ⟨(generate_facts es).2.2, (printDistances_facts ((Uinv_generate es).2.1)).1⟩

/-- Claim C9: the finite-distance-implies-next-hop-present invariant holds
after edge loading, after full initialization, is preserved by the
relaxation steps the pass performs on its states, holds after the pass, and
it makes the next-hop lookup of the path walker succeed on every
off-diagonal finite-distance pair. -/
theorem c9_nexthop_invariant :
    (∀ es, NextCov (InitEdges es)) ∧
    (∀ es, NextCov (mkFW es)) ∧
    (∀ es s k i j, Uinv es s → k ∈ s.vertices → i ∈ s.vertices →
      j ∈ s.vertices → NextCov (relaxStep s k i j)) ∧
    (∀ es, NextCov (GenerateDistanceMatrix (mkFW es))) ∧
    (∀ s u v d, NextCov s → mlookup s.dist (u, v) = some d → u ≠ v →
      d ≠ D.inf → (mlookup s.nxt (u, v)).isSome = true) :=
  ⟨initEdges_NextCov,
   fun es => (Uinv_mkFW es).2.2.2.1,
   fun _ _ k i j hU hk hi hj => (relaxStep_Uinv hU hk hi hj).2.2.2.1,
   fun es => (Uinv_generate es).2.2.2.1,
   fun _ u v d hN hd hne hfin => hN u v d hd hne hfin⟩

/-- Claim C9, witnessed on the initialised example graph at the pair
(A, B). -/
theorem c9_nexthop_invariant_witness :
    mlookup (mkFW exG).dist ("A", "B") = some (D.fin 1) ∧
    ("A" : V) ≠ "B" ∧ (D.fin 1 : D) ≠ D.inf ∧
    (mlookup (mkFW exG).nxt ("A", "B")).isSome = true :=
  ⟨by decide, by decide, by decide,
   c9_nexthop_invariant.2.2.2.2 (mkFW exG) "A" "B" (D.fin 1)
     (c9_nexthop_invariant.2.1 exG) (by decide) (by decide) (by decide)⟩

/-- Claim C10: the walker always terminates with a definite outcome — the
fuel `GetPath` allots (two more than the number of distinct next-hop
values) always produces a result, and giving the loop any more fuel never
changes that result. -/
theorem c10_termination (s : FWState) (u v : V) :
    (getPathAux s.nxt v (pathFuel s.nxt) [u] u).isSome = true ∧
    ∀ f, pathFuel s.nxt ≤ f →
      getPathAux s.nxt v f [u] u =
        getPathAux s.nxt v (pathFuel s.nxt) [u] u := by
  obtain ⟨r, hr⟩ := Option.isSome_iff_exists.mp (pathFuel_enough s.nxt v u)
  refine ⟨pathFuel_enough s.nxt v u, fun f hf => ?_⟩
  rw [hr, getPathAux_mono (pathFuel s.nxt) [u] u hr hf]

/-- Claim C10, witnessed on the substring-guard state with one unit of
extra fuel. -/
theorem c10_termination_witness :
    pathFuel sFalsePos.nxt ≤ pathFuel sFalsePos.nxt + 1 ∧
    getPathAux sFalsePos.nxt "C" (pathFuel sFalsePos.nxt + 1) ["AB"] "AB" =
      getPathAux sFalsePos.nxt "C" (pathFuel sFalsePos.nxt) ["AB"] "AB" :=
  ⟨by decide,
   (c10_termination sFalsePos "AB" "C").2 (pathFuel sFalsePos.nxt + 1)
     (by decide)⟩
